import Mathlib

/-!
# Verification of the tournament-bracket probability engine

A shallow embedding of `src/probability/tournament.py` (and the
`binomial_coefficient` helper of `src/probability/probability.py`), together
with theorems settling the specification claims about the constrained
perfect-matching enumerator (`generate_brackets`), the brute-force odds query
(`brute_force`) and the closed-form counting helpers (`prod_odd_to`,
`binomial_coefficient`).

Python generators are embedded as the lists of their yielded values, Python
`int` as `Nat` (all quantities involved are non-negative; the one signed
computation, the inclusion–exclusion sum, is stated over `Int`), and rule
closures as Lean functions `Team → Team → Bool`.
-/

namespace Tournament

/-- The regions of League of Legends pro play (`Region` in the source). -/
inductive Region where
  | lec
  | lcs
  | lck
  | lpl
  | other
deriving DecidableEq

/-- A team (`Team` in the source): a frozen dataclass with a region, a short
tag and a full name; the field defaults mirror the Python defaults. -/
structure Team where
  region : Region := Region.other
  tag : String := ""
  full_name : String := ""
deriving DecidableEq

/-- `Team()` in the source: the default-constructed team, used by the
enumerator as the bye sentinel for odd-sized pools. -/
def byeTeam : Team := {}

/-- A rule is a predicate on an ordered pair of teams. -/
abbrev Rule := Team → Team → Bool

/-- A bracket is the list of pairings the enumerator yields. -/
abbrev Bracket := List (Team × Team)

-- The eight fixture teams used by `test_brute_force` in the source.
def T1 : Team := ⟨Region.lck, "T1 ", "T1"⟩
def GEN : Team := ⟨Region.lck, "GEN", "Gen.G Esports"⟩
def HLE : Team := ⟨Region.lck, "HLE", "Hanwha Life Esports"⟩
def DK : Team := ⟨Region.lck, "DK ", "Dplus Kia"⟩
def G2 : Team := ⟨Region.lec, "G2 ", "G2 Esports"⟩
def FNC : Team := ⟨Region.lec, "FNC", "Fnatic"⟩
def BLG : Team := ⟨Region.lpl, "BLG", "Bilibili Gaming"⟩
def FLY : Team := ⟨Region.lcs, "FLY", "FlyQuest"⟩

/-- The loop body of `choose_matchup` in the source: iterate over the
candidate partners for `team1` (the pivot), keeping in `pre` the candidates
already passed over (`other_teams[:i]`) and in the last argument the
candidates still to try (`other_teams[i:]`).  Each candidate `team2` passing
every rule yields the singleton matchup `[(team1, team2)]` together with the
remaining pool `other_teams[:i] + other_teams[i+1:]`. -/
def pick_pairs (team1 : Team) (rules : List Rule) (pre : List Team) :
    List Team → List (Bracket × List Team)
  | [] => []
  | team2 :: rest =>
    if rules.all (fun rule => rule team1 team2) then
      ([(team1, team2)], pre ++ rest) :: pick_pairs team1 rules (pre ++ [team2]) rest
    else
      pick_pairs team1 rules (pre ++ [team2]) rest

/-- `choose_matchup` from the source: pivot on the first team of the pool and
yield every rule-satisfying matchup with one of the remaining teams, together
with the pool of teams left over. -/
def choose_matchup (teams : List Team) (rules : List Rule) : List (Bracket × List Team) :=
  match teams with
  | [] => []
  | team1 :: other_teams => pick_pairs team1 rules [] other_teams

/-- Recursion core of `generate_brackets`.  The source recurses on a list
that shrinks by two elements per step; the `fuel` argument, always invoked
with `fuel = teams.length`, makes that recursion structural (on `fuel`) so
that the definition computes by kernel reduction.  The final catch-all
(`fuel` exhausted while three or more teams remain) is unreachable under
that invariant. -/
def gbAux (rules : List Rule) : Nat → List Team → List Bracket
  | _, [] => []
  | _, [t] => [[(t, byeTeam)]]
  | _, [t1, t2] => if rules.all (fun rule => rule t1 t2) then [[(t1, t2)]] else []
  | fuel + 2, t1 :: t2 :: t3 :: rest =>
    (choose_matchup (t1 :: t2 :: t3 :: rest) rules).flatMap fun mo =>
      (gbAux rules fuel mo.2).map fun other_matchup => mo.1 ++ other_matchup
  | _, _ => []

/-- `generate_brackets` from the source: all brackets over `teams` in which
every pairing chosen during construction satisfies every rule.  Matching the
source: an empty pool yields nothing, a singleton pool yields its sole team
paired with the bye sentinel, a two-team pool yields the single pairing when
it passes the rules, and larger pools pivot on the first team and recurse. -/
def generate_brackets (teams : List Team) (rules : List Rule) : List Bracket :=
  gbAux rules teams.length teams

/-- `diff_region` from the source: the rule accepting pairs of teams from
different regions. -/
def diff_region (a b : Team) : Bool :=
  a.region != b.region

/-- `invalid_matchup` from the source: the closure rejecting exactly the
matchup of `a` with `b` (in either order). -/
def invalid_matchup (a b : Team) : Rule :=
  fun x y => !((x == a && y == b) || (x == b && y == a))

/-- `prod_odd_to` from the source: the product of all odd numbers below `n`
(`prod(range(1, n, 2))`). -/
def prod_odd_to (n : Nat) : Nat :=
  (List.range' 1 (n / 2) 2).prod

/-- `bracket_has_event` from the source: the event pair occurs in the
bracket, in either order. -/
def bracket_has_event (bracket : Bracket) (event : Team × Team) : Bool :=
  bracket.contains (event.1, event.2) || bracket.contains (event.2, event.1)

/-- `brute_force` from the source: iterate over every bracket satisfying the
rules, returning how many of them satisfy the events (all of them, or any of
them when `use_any` is set) together with the total number of brackets.  The
debug printing of the source is omitted: it does not affect the returned
pair. -/
def brute_force (teams : List Team) (events : List (Team × Team))
    (rules : List Rule) (use_any : Bool) : Nat × Nat :=
  let brackets := generate_brackets teams rules
  (brackets.countP fun bracket =>
      if use_any then events.any (fun event => bracket_has_event bracket event)
      else events.all (fun event => bracket_has_event bracket event),
   brackets.length)

/-- `binomial_coefficient` from `probability.py`: `C(n, k)` computed by the
multiplicative loop `res = res * (n - i) // (i + 1)`, after replacing `k` by
`n - k` when `k > n - k`.  (With `Nat` truncated subtraction this agrees with
the Python function on every pair of non-negative arguments, including the
out-of-range case `k > n` where both return `1`.) -/
def binomial_coefficient (n k : Nat) : Nat :=
  if k > n - k then
    binomial_coefficient n (n - k)
  else
    (List.range k).foldl (fun res i => res * (n - i) / (i + 1)) 1
termination_by k
decreasing_by omega

/-! ## Basic structure of `pick_pairs` and the unfolding of `generate_brackets` -/

theorem pick_pairs_length {team1 : Team} {rules : List Rule} :
    ∀ {rest pre : List Team} {mo : Bracket × List Team},
      mo ∈ pick_pairs team1 rules pre rest → mo.2.length + 1 = pre.length + rest.length := by
  intro rest
  induction rest with
  | nil => intro pre mo h; simp [pick_pairs] at h
  | cons t2 rest ih =>
    intro pre mo h
    simp only [pick_pairs] at h
    split at h
    · rcases List.mem_cons.mp h with h | h
      · subst h; simp; omega
      · have := ih h; simp at this ⊢; omega
    · have := ih h; simp at this ⊢; omega

theorem pick_pairs_mem {team1 : Team} {rules : List Rule} :
    ∀ {rest pre : List Team} {mo : Bracket × List Team},
      mo ∈ pick_pairs team1 rules pre rest →
      ∃ l1 team2 l2, rest = l1 ++ team2 :: l2 ∧
        (rules.all fun rule => rule team1 team2) = true ∧
        mo = ([(team1, team2)], pre ++ (l1 ++ l2)) := by
  intro rest
  induction rest with
  | nil => intro pre mo h; simp [pick_pairs] at h
  | cons t2 rest ih =>
    intro pre mo h
    simp only [pick_pairs] at h
    split at h
    next hr =>
      rcases List.mem_cons.mp h with h | h
      · exact ⟨[], t2, rest, by simp, hr, by simpa using h⟩
      · obtain ⟨l1, u, l2, hsplit, hru, hmo⟩ := ih h
        exact ⟨t2 :: l1, u, l2, by simp [hsplit], hru, by simp [hmo]⟩
    next =>
      obtain ⟨l1, u, l2, hsplit, hru, hmo⟩ := ih h
      exact ⟨t2 :: l1, u, l2, by simp [hsplit], hru, by simp [hmo]⟩

/-- Every remaining pool produced by `choose_matchup` on a pool of `n ≥ 1`
teams has exactly `n - 2` teams. -/
theorem choose_matchup_length {teams : List Team} {rules : List Rule}
    {mo : Bracket × List Team} (h : mo ∈ choose_matchup teams rules) :
    mo.2.length + 2 = teams.length := by
  match teams with
  | [] => simp [choose_matchup] at h
  | team1 :: other =>
    have := pick_pairs_length h
    simp at this ⊢
    omega

-- The defining recursion of `generate_brackets`, phrased on the list alone
-- (the fuel of `gbAux` eliminated): one equation per shape of the pool.

theorem generate_brackets_nil (rules : List Rule) :
    generate_brackets [] rules = [] := rfl

theorem generate_brackets_one (t : Team) (rules : List Rule) :
    generate_brackets [t] rules = [[(t, byeTeam)]] := rfl

theorem generate_brackets_two (t1 t2 : Team) (rules : List Rule) :
    generate_brackets [t1, t2] rules =
      if rules.all (fun rule => rule t1 t2) then [[(t1, t2)]] else [] := rfl

theorem generate_brackets_cons3 (t1 t2 t3 : Team) (rest : List Team) (rules : List Rule) :
    generate_brackets (t1 :: t2 :: t3 :: rest) rules =
      (choose_matchup (t1 :: t2 :: t3 :: rest) rules).flatMap fun mo =>
        (generate_brackets mo.2 rules).map fun other_matchup => mo.1 ++ other_matchup := by
  show gbAux rules (rest.length + 1 + 2) (t1 :: t2 :: t3 :: rest) = _
  simp only [gbAux]
  apply List.flatMap_congr
  intro mo hmo
  have hlen : mo.2.length = rest.length + 1 := by
    have := choose_matchup_length hmo; simp at this; omega
  rw [generate_brackets, hlen]

/-! ## Structural invariants of yielded brackets -/

/-- All slots of a bracket, in order: the flattened list of pairing
components. -/
def flatPairs (b : Bracket) : List Team :=
  b.flatMap fun pr => [pr.1, pr.2]

theorem flatPairs_nil : flatPairs [] = [] := rfl

theorem flatPairs_cons (pr : Team × Team) (b : Bracket) :
    flatPairs (pr :: b) = pr.1 :: pr.2 :: flatPairs b := rfl

theorem flatPairs_append (b₁ b₂ : Bracket) :
    flatPairs (b₁ ++ b₂) = flatPairs b₁ ++ flatPairs b₂ := by
  simp [flatPairs]

/-- Every pairing of a yielded bracket has its first component in the input
pool and its second component in the pool or equal to the bye sentinel. -/
theorem gb_components (teams : List Team) (rules : List Rule) {b : Bracket}
    (hb : b ∈ generate_brackets teams rules) :
    ∀ pr ∈ b, pr.1 ∈ teams ∧ (pr.2 ∈ teams ∨ pr.2 = byeTeam) := by
  generalize hn : teams.length = n
  induction n using Nat.strong_induction_on generalizing teams b with
  | _ n ih =>
    intro pr hpr
    rcases teams with - | ⟨t1, - | ⟨t2, - | ⟨t3, rest⟩⟩⟩
    · rw [generate_brackets_nil] at hb
      simp at hb
    · rw [generate_brackets_one] at hb
      simp at hb
      subst hb
      simp at hpr
      subst hpr
      simp
    · rw [generate_brackets_two] at hb
      split at hb
      · simp at hb
        subst hb
        simp at hpr
        subst hpr
        simp
      · simp at hb
    · rw [generate_brackets_cons3, List.mem_flatMap] at hb
      obtain ⟨mo, hmo, hb⟩ := hb
      rw [List.mem_map] at hb
      obtain ⟨ob, hob, hb⟩ := hb
      obtain ⟨l1, u, l2, hsplit, -, hmoeq⟩ := pick_pairs_mem hmo
      have hrem_sub : ∀ x ∈ mo.2, x ∈ t2 :: t3 :: rest := by
        intro x hx
        rw [hmoeq] at hx
        simp at hx
        rw [hsplit]
        simp at hx ⊢
        tauto
      subst hb
      have hlt : mo.2.length < n := by
        have := choose_matchup_length hmo
        simp at this hn
        omega
      rcases List.mem_append.mp hpr with hpr | hpr
      · rw [hmoeq] at hpr
        simp at hpr
        subst hpr
        have hu : u ∈ t2 :: t3 :: rest := by rw [hsplit]; simp
        refine ⟨by simp, Or.inl ?_⟩
        simp at hu ⊢
        tauto
      · obtain ⟨h1, h2⟩ := ih mo.2.length hlt mo.2 hob rfl pr hpr
        refine ⟨?_, ?_⟩
        · have := hrem_sub _ h1
          simp at this ⊢
          tauto
        · rcases h2 with h2 | h2
          · have := hrem_sub _ h2
            refine Or.inl ?_
            simp at this ⊢
            tauto
          · exact Or.inr h2

/-- The slots of a yielded bracket are a permutation of the input pool,
extended with the bye sentinel when the pool has odd size. -/
theorem gb_flatPairs_perm (teams : List Team) (rules : List Rule) {b : Bracket}
    (hb : b ∈ generate_brackets teams rules) :
    (flatPairs b).Perm (teams ++ if teams.length % 2 = 1 then [byeTeam] else []) := by
  generalize hn : teams.length = n
  induction n using Nat.strong_induction_on generalizing teams b with
  | _ n ih =>
    rcases teams with - | ⟨t1, - | ⟨t2, - | ⟨t3, rest⟩⟩⟩
    · rw [generate_brackets_nil] at hb
      simp at hb
    · subst hn
      rw [generate_brackets_one] at hb
      simp at hb
      subst hb
      simp [flatPairs]
    · subst hn
      rw [generate_brackets_two] at hb
      split at hb
      · simp at hb
        subst hb
        simp [flatPairs]
      · simp at hb
    · subst hn
      rw [generate_brackets_cons3, List.mem_flatMap] at hb
      obtain ⟨mo, hmo, hb⟩ := hb
      rw [List.mem_map] at hb
      obtain ⟨ob, hob, hb⟩ := hb
      obtain ⟨l1, u, l2, hsplit, -, hmoeq⟩ := pick_pairs_mem hmo
      have hlt : mo.2.length < (t1 :: t2 :: t3 :: rest).length := by
        have := choose_matchup_length hmo
        omega
      have hperm := ih mo.2.length hlt mo.2 hob rfl
      have hparity : mo.2.length % 2 = (t1 :: t2 :: t3 :: rest).length % 2 := by
        have := choose_matchup_length hmo
        omega
      have hrem : mo.2 = l1 ++ l2 := by rw [hmoeq]; simp
      have hm1 : mo.1 = [(t1, u)] := by rw [hmoeq]
      subst hb
      have key : flatPairs (mo.1 ++ ob) = t1 :: u :: flatPairs ob := by
        rw [flatPairs_append, hm1, flatPairs_cons, flatPairs_nil]
        rfl
      rw [key]
      rw [hparity] at hperm
      refine (List.Perm.cons t1 (List.Perm.cons u hperm)).trans ?_
      rw [hrem, hsplit]
      simp only [List.cons_append, List.append_assoc]
      exact List.Perm.cons t1 List.perm_middle.symm

/-! ## Counting consequences of the permutation invariant -/

/-- A team of a duplicate-free pool not containing the sentinel occupies
exactly one slot of any yielded bracket. -/
theorem count_flatPairs_of_mem {teams : List Team} {rules : List Rule} {b : Bracket}
    (hb : b ∈ generate_brackets teams rules) (hnd : teams.Nodup)
    (hbye : byeTeam ∉ teams) {t : Team} (ht : t ∈ teams) :
    (flatPairs b).count t = 1 := by
  rw [(gb_flatPairs_perm teams rules hb).count_eq, List.count_append,
    List.count_eq_one_of_mem hnd ht]
  have htb : t ≠ byeTeam := fun h => hbye (h ▸ ht)
  split
  · rw [List.count_eq_zero.mpr (by simpa using htb)]
  · rw [List.count_nil]

/-- The sentinel occupies one slot of a yielded bracket when the pool size is
odd, and none when it is even, provided it is not itself a pool member. -/
theorem count_flatPairs_bye {teams : List Team} {rules : List Rule} {b : Bracket}
    (hb : b ∈ generate_brackets teams rules) (hbye : byeTeam ∉ teams) :
    (flatPairs b).count byeTeam = if teams.length % 2 = 1 then 1 else 0 := by
  rw [(gb_flatPairs_perm teams rules hb).count_eq, List.count_append,
    List.count_eq_zero.mpr hbye]
  split
  · simp
  · simp

/-- A team outside the pool and different from the sentinel occupies no slot
of any yielded bracket. -/
theorem count_flatPairs_not_mem {teams : List Team} {rules : List Rule} {b : Bracket}
    (hb : b ∈ generate_brackets teams rules) {t : Team} (ht : t ∉ teams)
    (htb : t ≠ byeTeam) : (flatPairs b).count t = 0 := by
  rw [(gb_flatPairs_perm teams rules hb).count_eq, List.count_append,
    List.count_eq_zero.mpr ht]
  split
  · rw [List.count_eq_zero.mpr (by simpa using htb)]
  · rw [List.count_nil]

/-- A slot value of some pairing of a bracket occurs in its flattened slots. -/
theorem count_flatPairs_pos {b : Bracket} {pr : Team × Team} (hpr : pr ∈ b)
    {t : Team} (ht : t = pr.1 ∨ t = pr.2) : 1 ≤ (flatPairs b).count t := by
  refine List.count_pos_iff.mpr ?_
  rw [flatPairs, List.mem_flatMap]
  exact ⟨pr, hpr, by rcases ht with h | h <;> simp [h]⟩

/-- A self-pairing contributes two slots with the same team. -/
theorem count_flatPairs_self {b : Bracket} {a : Team} (h : (a, a) ∈ b) :
    2 ≤ (flatPairs b).count a := by
  induction b with
  | nil => simp at h
  | cons pr rest ih =>
    rw [flatPairs_cons, List.count_cons, List.count_cons]
    rcases List.mem_cons.mp h with h | h
    · rw [← h]
      simp
    · have := ih h
      omega

/-- Two different pairings of a bracket that both mention `t` contribute at
least two slots equal to `t`. -/
theorem count_flatPairs_two {b : Bracket} {p q : Team × Team} (hp : p ∈ b) (hq : q ∈ b)
    (hne : p ≠ q) {t : Team} (htp : t = p.1 ∨ t = p.2) (htq : t = q.1 ∨ t = q.2) :
    2 ≤ (flatPairs b).count t := by
  induction b with
  | nil => simp at hp
  | cons pr rest ih =>
    rw [flatPairs_cons, List.count_cons, List.count_cons]
    rcases List.mem_cons.mp hp with hp' | hp'
    · have hq' : q ∈ rest := by
        rcases List.mem_cons.mp hq with h | h
        · exact absurd (hp'.trans h.symm) hne
        · exact h
      have h1 := count_flatPairs_pos hq' htq
      have h2 : (if (pr.1 == t) = true then 1 else 0) + (if (pr.2 == t) = true then 1 else 0) ≥ 1 := by
        rw [hp'] at htp
        rcases htp with h | h <;> simp [h]
      omega
    · rcases List.mem_cons.mp hq with hq' | hq'
      · have h1 := count_flatPairs_pos hp' htp
        have h2 : (if (pr.1 == t) = true then 1 else 0) + (if (pr.2 == t) = true then 1 else 0) ≥ 1 := by
          rw [hq'] at htq
          rcases htq with h | h <;> simp [h]
        omega
      · have := ih hp' hq'
        omega

/-- The pairings of a bracket mentioning `t` are no more numerous than the
slots equal to `t`. -/
theorem countP_pair_le_count (b : Bracket) (t : Team) :
    b.countP (fun pr => pr.1 == t || pr.2 == t) ≤ (flatPairs b).count t := by
  induction b with
  | nil => simp [flatPairs]
  | cons pr rest ih =>
    rw [flatPairs_cons, List.count_cons, List.count_cons, List.countP_cons]
    by_cases h1 : pr.1 = t
    · simp only [h1]
      simp
      omega
    · by_cases h2 : pr.2 = t
      · simp only [h2]
        simp
        omega
      · have e1 : (pr.1 == t) = false := by simpa using h1
        have e2 : (pr.2 == t) = false := by simpa using h2
        rw [e1, e2]
        simp
        omega

/-- Each member of a duplicate-free pool (without the sentinel) belongs to
exactly one pairing of every yielded bracket. -/
theorem countP_pair_eq_one {teams : List Team} {rules : List Rule} {b : Bracket}
    (hb : b ∈ generate_brackets teams rules) (hnd : teams.Nodup)
    (hbye : byeTeam ∉ teams) {t : Team} (ht : t ∈ teams) :
    b.countP (fun pr => pr.1 == t || pr.2 == t) = 1 := by
  have hle := countP_pair_le_count b t
  rw [count_flatPairs_of_mem hb hnd hbye ht] at hle
  have hpos : 0 < b.countP (fun pr => pr.1 == t || pr.2 == t) := by
    have h1 : 1 ≤ (flatPairs b).count t := by
      rw [count_flatPairs_of_mem hb hnd hbye ht]
    have h2 : t ∈ flatPairs b := List.count_pos_iff.mp h1
    rw [flatPairs, List.mem_flatMap] at h2
    obtain ⟨pr, hpr, hslot⟩ := h2
    refine List.countP_pos_iff.mpr ⟨pr, hpr, ?_⟩
    simp at hslot ⊢
    tauto
  omega

/-- When no pairing has the sentinel on the left, the pairings with the
sentinel on the right are exactly the sentinel's slots. -/
theorem countP_snd_bye {b : Bracket} (h : ∀ pr ∈ b, pr.1 ≠ byeTeam) :
    b.countP (fun pr => pr.2 == byeTeam) = (flatPairs b).count byeTeam := by
  induction b with
  | nil => simp [flatPairs]
  | cons pr rest ih =>
    rw [flatPairs_cons, List.count_cons, List.count_cons, List.countP_cons]
    have h1 : (pr.1 == byeTeam) = false := by
      simpa using h pr (by simp)
    rw [h1, ih fun q hq => h q (by simp [hq])]
    simp

/-! ## Rule checking -/

/-- Every pairing of a yielded bracket whose second component is a pool
member was checked against every rule (in the stored argument order).  The
only unchecked pairing the enumerator ever emits is the bye pairing, whose
second component is the sentinel — excluded here by `hbye`. -/
theorem gb_pairs_checked {teams : List Team} (rules : List Rule) (hbye : byeTeam ∉ teams)
    {b : Bracket} (hb : b ∈ generate_brackets teams rules) :
    ∀ pr ∈ b, pr.2 ∈ teams → ∀ rule ∈ rules, rule pr.1 pr.2 = true := by
  generalize hn : teams.length = n
  induction n using Nat.strong_induction_on generalizing teams b with
  | _ n ih =>
    intro pr hpr hsnd rule hrule
    rcases teams with - | ⟨t1, - | ⟨t2, - | ⟨t3, rest⟩⟩⟩
    · rw [generate_brackets_nil] at hb
      simp at hb
    · rw [generate_brackets_one] at hb
      simp at hb
      subst hb
      simp at hpr
      subst hpr
      simp at hsnd
      exact absurd (show byeTeam ∈ [t1] by simp [hsnd]) hbye
    · rw [generate_brackets_two] at hb
      split at hb
      next hpass =>
        simp at hb
        subst hb
        simp at hpr
        subst hpr
        exact List.all_eq_true.mp hpass rule hrule
      next => simp at hb
    · rw [generate_brackets_cons3, List.mem_flatMap] at hb
      obtain ⟨mo, hmo, hb⟩ := hb
      rw [List.mem_map] at hb
      obtain ⟨ob, hob, hb⟩ := hb
      obtain ⟨l1, u, l2, hsplit, hpass, hmoeq⟩ := pick_pairs_mem hmo
      have hrem_sub : ∀ x ∈ mo.2, x ∈ t1 :: t2 :: t3 :: rest := by
        intro x hx
        rw [hmoeq] at hx
        simp at hx
        rw [hsplit]
        simp at hx ⊢
        tauto
      subst hb
      rcases List.mem_append.mp hpr with hpr | hpr
      · rw [hmoeq] at hpr
        simp at hpr
        subst hpr
        exact List.all_eq_true.mp hpass rule hrule
      · have hlt : mo.2.length < n := by
          have := choose_matchup_length hmo
          simp at this hn
          omega
        have hbye' : byeTeam ∉ mo.2 := fun h => hbye (hrem_sub _ h)
        have hsnd' : pr.2 ∈ mo.2 := by
          rcases gb_components mo.2 rules hob pr hpr with ⟨-, h2 | h2⟩
          · exact h2
          · exact absurd hsnd (h2 ▸ hbye)
        exact ih mo.2.length hlt hbye' hob rfl pr hpr hsnd' rule hrule

/-! ## Rules act by filtering the unconstrained enumeration -/

/-- The rule check a bracket's pairings went through during construction:
every pairing other than a bye pairing passes every rule. -/
def bracket_passes (rules : List Rule) (b : Bracket) : Bool :=
  b.all fun pr => pr.2 == byeTeam || rules.all fun rule => rule pr.1 pr.2

theorem flatMap_filter_eq {α β : Type} (l : List α) (q : α → Bool) (f : α → List β) :
    (l.filter q).flatMap f = l.flatMap fun a => if q a then f a else [] := by
  induction l with
  | nil => rfl
  | cons a l ih =>
    rw [List.filter_cons]
    split
    · rw [List.flatMap_cons, List.flatMap_cons, ih]
      simp_all
    · rw [List.flatMap_cons, ih]
      simp_all

/-- `pick_pairs` under a rule set is the rule-induced filtering of
`pick_pairs` under no rules. -/
theorem pick_pairs_filter (team1 : Team) (rules : List Rule) :
    ∀ (rest pre : List Team),
      pick_pairs team1 rules pre rest =
        (pick_pairs team1 [] pre rest).filter fun mo =>
          mo.1.all fun pr => rules.all fun rule => rule pr.1 pr.2 := by
  intro rest
  induction rest with
  | nil => intro pre; rfl
  | cons t2 rest ih =>
    intro pre
    simp only [pick_pairs, List.all_nil]
    rw [if_pos trivial, List.filter_cons]
    by_cases hpass : (rules.all fun rule => rule team1 t2) = true
    · rw [if_pos hpass, if_pos (by simpa using hpass), ih]
    · rw [if_neg hpass, if_neg (by simpa using hpass), ih]

theorem bracket_passes_append (rules : List Rule) (b₁ b₂ : Bracket) :
    bracket_passes rules (b₁ ++ b₂) = (bracket_passes rules b₁ && bracket_passes rules b₂) := by
  simp [bracket_passes, List.all_append]

/-- Enumerating under a rule set is the same as enumerating without rules and
then discarding the brackets with a rule-violating (non-bye) pairing. -/
theorem gb_rules_filter (teams : List Team) (rules : List Rule) (hbye : byeTeam ∉ teams) :
    generate_brackets teams rules = (generate_brackets teams []).filter (bracket_passes rules) := by
  generalize hn : teams.length = n
  induction n using Nat.strong_induction_on generalizing teams with
  | _ n ih =>
    rcases teams with - | ⟨t1, - | ⟨t2, - | ⟨t3, rest⟩⟩⟩
    · rw [generate_brackets_nil, generate_brackets_nil]
      rfl
    · rw [generate_brackets_one, generate_brackets_one]
      simp [bracket_passes]
    · have ht2 : (t2 == byeTeam) = false := by
        simp only [beq_eq_false_iff_ne, ne_eq]
        intro h
        exact hbye (by simp [h])
      rw [generate_brackets_two, generate_brackets_two,
        if_pos (show (List.all ([] : List Rule) fun rule => rule t1 t2) = true by simp)]
      by_cases hpass : (rules.all fun rule => rule t1 t2) = true
      · rw [if_pos hpass]
        simp [bracket_passes, ht2, hpass]
      · rw [if_neg hpass]
        simp only [Bool.not_eq_true] at hpass
        simp [bracket_passes, ht2, hpass]
    · rw [generate_brackets_cons3, generate_brackets_cons3]
      simp only [choose_matchup]
      rw [pick_pairs_filter, flatMap_filter_eq, List.filter_flatMap]
      apply List.flatMap_congr
      intro mo hmo
      obtain ⟨l1, u, l2, hsplit, -, hmoeq⟩ := pick_pairs_mem hmo
      have hu : u ∈ t2 :: t3 :: rest := by rw [hsplit]; simp
      have hub : (u == byeTeam) = false := by
        simp only [beq_eq_false_iff_ne, ne_eq]
        intro h
        apply hbye
        rw [← h]
        simp at hu ⊢
        tauto
      have hm1 : mo.1 = [(t1, u)] := by rw [hmoeq]
      have hbye' : byeTeam ∉ mo.2 := by
        intro h
        apply hbye
        rw [hmoeq] at h
        simp at h
        have : byeTeam ∈ t2 :: t3 :: rest := by
          rw [hsplit]
          simp at h ⊢
          tauto
        simp at this ⊢
        tauto
      have hlen : mo.2.length < n := by
        have := pick_pairs_length hmo
        simp at this hn
        omega
      have hIH := ih mo.2.length hlen mo.2 hbye' rfl
      rw [List.filter_map]
      have hsingle : bracket_passes rules [(t1, u)] = (rules.all fun rule => rule t1 u) := by
        simp [bracket_passes, hub]
      by_cases hpass : (rules.all fun rule => rule t1 u) = true
      · have hcond : (mo.1.all fun pr => rules.all fun rule => rule pr.1 pr.2) = true := by
          simp [hm1]
          simpa using hpass
        rw [if_pos hcond, hIH]
        congr 1
        apply List.filter_congr
        intro ob hob
        simp only [Function.comp_apply, bracket_passes_append, hm1, hsingle, hpass,
          Bool.true_and]
      · have hcond : ¬(mo.1.all fun pr => rules.all fun rule => rule pr.1 pr.2) = true := by
          simp [hm1]
          simpa using hpass
        rw [if_neg hcond]
        have hnil : List.filter (bracket_passes rules ∘ fun ob => mo.1 ++ ob)
            (generate_brackets mo.2 []) = [] := by
          rw [List.filter_eq_nil_iff]
          intro ob hob
          simp only [Function.comp_apply, bracket_passes_append, hm1, hsingle]
          simp [hpass]
        rw [hnil, List.map_nil]

/-! ## Counting the unconstrained enumeration -/

/-- With no rules, `pick_pairs` tries every candidate in order: its output is
indexed by the positions of the remaining pool. -/
theorem pick_pairs_no_rules (team1 : Team) :
    ∀ (rest pre : List Team),
      pick_pairs team1 [] pre rest =
        (List.range rest.length).map fun i =>
          ([(team1, rest.getD i byeTeam)], pre ++ rest.eraseIdx i) := by
  intro rest
  induction rest with
  | nil => intro pre; rfl
  | cons t2 rest ih =>
    intro pre
    simp only [pick_pairs, List.all_nil]
    rw [if_pos trivial, List.length_cons, List.range_succ_eq_map, List.map_cons, ih,
      List.map_map]
    congr 1
    apply List.map_congr_left
    intro i hi
    simp [List.getD_cons_succ, List.eraseIdx_cons_succ]

theorem sum_map_const {α : Type} (l : List α) (c : ℕ) :
    (l.map fun _ => c).sum = l.length * c := by
  induction l with
  | nil => simp
  | cons a l ih => simp [ih]; ring

/-- The unconstrained enumerator yields `(n-1)‼` brackets on every nonempty
pool of `n` teams (and none on the empty pool). -/
theorem gb_length_no_rules (teams : List Team) (hne : teams ≠ []) :
    (generate_brackets teams []).length = Nat.doubleFactorial (teams.length - 1) := by
  generalize hn : teams.length = n
  induction n using Nat.strong_induction_on generalizing teams with
  | _ n ih =>
    rcases teams with - | ⟨t1, - | ⟨t2, - | ⟨t3, rest⟩⟩⟩
    · exact absurd rfl hne
    · subst hn
      rw [generate_brackets_one]
      rfl
    · subst hn
      rw [generate_brackets_two, if_pos (by simp)]
      rfl
    · subst hn
      rw [generate_brackets_cons3]
      simp only [choose_matchup]
      rw [pick_pairs_no_rules, List.length_flatMap, List.map_map]
      have hconst : ∀ i ∈ List.range (t2 :: t3 :: rest).length,
          ((List.length ∘ fun mo => List.map (fun other_matchup => mo.1 ++ other_matchup)
              (generate_brackets mo.2 [])) ∘ fun i =>
            (([(t1, (t2 :: t3 :: rest).getD i byeTeam)] : Bracket),
              [] ++ (t2 :: t3 :: rest).eraseIdx i)) i =
          Nat.doubleFactorial ((t2 :: t3 :: rest).length - 2) := by
        intro i hi
        rw [List.mem_range] at hi
        have hlen : ((t2 :: t3 :: rest).eraseIdx i).length = (t2 :: t3 :: rest).length - 1 := by
          rw [List.length_eraseIdx, if_pos hi]
        simp only [Function.comp_apply, List.length_map, List.nil_append]
        rw [ih ((t2 :: t3 :: rest).eraseIdx i).length (by simp at hlen ⊢; omega)
          ((t2 :: t3 :: rest).eraseIdx i)
          (by rw [← List.length_pos_iff_ne_nil]; simp at hlen ⊢; omega) rfl, hlen]
        congr 1
      rw [List.map_congr_left hconst, sum_map_const, List.length_range]
      simp only [List.length_cons]
      have h2 : rest.length + 2 - 2 = rest.length := by omega
      have h3 : rest.length + 1 + 1 + 1 - 1 = rest.length + 2 := by omega
      rw [h2, h3, Nat.doubleFactorial_add_two]

/-! ## The closed-form helpers agree with the textbook functions -/

theorem range'_prod_doubleFactorial :
    ∀ k : Nat, (List.range' 1 k 2).prod = Nat.doubleFactorial (2 * k - 1) := by
  intro k
  induction k with
  | zero => rfl
  | succ k ih =>
    rw [List.range'_concat, List.prod_append, ih, List.prod_singleton]
    have h1 : 2 * (k + 1) - 1 = 2 * k + 1 := by omega
    rw [h1, Nat.doubleFactorial_add_one]
    have h2 : 2 * k + 1 - 1 = 2 * k := by omega
    cases k with
    | zero => rfl
    | succ k =>
      have h3 : 2 * (k + 1) - 1 = 2 * k + 1 := by omega
      rw [h3]
      have h4 : 1 + 2 * (k + 1) = 2 * (k + 1) + 1 := by omega
      rw [h4]
      ring

/-- `prod_odd_to` is the double factorial `(n-1)‼` on even inputs. -/
theorem prod_odd_to_even (k : Nat) :
    prod_odd_to (2 * k) = Nat.doubleFactorial (2 * k - 1) := by
  rw [prod_odd_to, Nat.mul_div_cancel_left k (by norm_num), range'_prod_doubleFactorial]

theorem bc_foldl_choose (n : Nat) :
    ∀ k : Nat, k ≤ n →
      (List.range k).foldl (fun res i => res * (n - i) / (i + 1)) 1 = n.choose k := by
  intro k
  induction k with
  | zero => intro _; simp
  | succ k ih =>
    intro hk
    rw [List.range_succ, List.foldl_append, ih (by omega), List.foldl_cons, List.foldl_nil]
    have := Nat.choose_succ_right_eq n k
    rw [← this, Nat.mul_div_cancel _ (by omega)]

/-- `binomial_coefficient` computes the binomial coefficient. -/
theorem binomial_coefficient_eq_choose {n k : Nat} (h : k ≤ n) :
    binomial_coefficient n k = n.choose k := by
  rw [binomial_coefficient]
  split
  next hgt =>
    rw [binomial_coefficient]
    rw [if_neg (by omega)]
    rw [bc_foldl_choose n (n - k) (by omega), Nat.choose_symm h]
  next hgt =>
    exact bc_foldl_choose n k h

/-! ## Events: membership facts -/

theorem bracket_has_event_iff (b : Bracket) (e : Team × Team) :
    bracket_has_event b e = true ↔ (e.1, e.2) ∈ b ∨ (e.2, e.1) ∈ b := by
  simp [bracket_has_event]

theorem bracket_has_event_append (b₁ b₂ : Bracket) (e : Team × Team) :
    bracket_has_event (b₁ ++ b₂) e = (bracket_has_event b₁ e || bracket_has_event b₂ e) := by
  rw [Bool.eq_iff_iff, Bool.or_eq_true_iff]
  rw [bracket_has_event_iff, bracket_has_event_iff, bracket_has_event_iff]
  simp only [List.mem_append]
  tauto

theorem bracket_has_event_singleton (a c : Team) (e : Team × Team) :
    bracket_has_event [(a, c)] e = true ↔
      (e.1 = a ∧ e.2 = c) ∨ (e.2 = a ∧ e.1 = c) := by
  rw [bracket_has_event_iff]
  simp [Prod.ext_iff]

/-- An event mentioning a team outside the pool (and different from the
sentinel) occurs in no yielded bracket. -/
theorem bracket_has_event_of_not_mem {teams : List Team} {rules : List Rule} {b : Bracket}
    (hb : b ∈ generate_brackets teams rules) {e : Team × Team}
    (h : (e.1 ∉ teams ∧ e.1 ≠ byeTeam) ∨ (e.2 ∉ teams ∧ e.2 ≠ byeTeam)) :
    bracket_has_event b e = false := by
  rw [← Bool.not_eq_true, bracket_has_event_iff]
  intro hc
  rcases hc with hc | hc <;> obtain ⟨h1, h2⟩ := gb_components teams rules hb _ hc <;>
    simp at h1 h2 <;> tauto

/-! ## Sums over the candidate positions -/

theorem sum_range_getD {α : Type} [DecidableEq α] (l : List α) (d : α) (pb : α → Bool) (c : ℕ) :
    ((List.range l.length).map fun i => if pb (l.getD i d) = true then c else 0).sum =
      l.countP pb * c := by
  induction l with
  | nil => simp
  | cons a l ih =>
    rw [List.length_cons, List.range_succ_eq_map, List.map_cons, List.map_map, List.sum_cons,
      List.countP_cons]
    have : ((List.range l.length).map
        ((fun i => if pb ((a :: l).getD i d) = true then c else 0) ∘ Nat.succ)).sum =
        l.countP pb * c := by
      rw [← ih]
      apply congrArg
      apply List.map_congr_left
      intro i hi
      rfl
    rw [this]
    by_cases hpa : pb a = true
    · simp only [List.getD_cons_zero, hpa, if_true]
      ring
    · rw [Bool.not_eq_true] at hpa
      simp only [List.getD_cons_zero, hpa]
      simp

/-- The distinct endpoints of a set of pairwise-disjoint in-pool pairs number
twice the pairs. -/
theorem endpoints_card (S : Finset (Team × Team))
    (hS : ∀ p ∈ S, p.1 ≠ p.2)
    (hdisj : ∀ p ∈ S, ∀ q ∈ S, p ≠ q →
      p.1 ≠ q.1 ∧ p.1 ≠ q.2 ∧ p.2 ≠ q.1 ∧ p.2 ≠ q.2) :
    (S.biUnion fun p => ({p.1, p.2} : Finset Team)).card = 2 * S.card := by
  have hdisj' : ∀ p ∈ S, ∀ q ∈ S, p ≠ q →
      Disjoint ({p.1, p.2} : Finset Team) ({q.1, q.2} : Finset Team) := by
    intro p hp q hq hne
    rw [Finset.disjoint_left]
    intro a hap haq
    simp at hap haq
    obtain ⟨h1, h2, h3, h4⟩ := hdisj p hp q hq hne
    rcases hap with rfl | rfl <;> rcases haq with h | h <;> simp_all
  rw [Finset.card_biUnion hdisj']
  have hcard : ∀ p ∈ S, ({p.1, p.2} : Finset Team).card = 2 := by
    intro p hp
    rw [Finset.card_insert_of_not_mem (by simp [hS p hp]), Finset.card_singleton]
  rw [Finset.sum_congr rfl hcard, Finset.sum_const, smul_eq_mul, mul_comm]

theorem endpoints_card_le (teams : List Team) (hnd : teams.Nodup)
    (S : Finset (Team × Team))
    (hS : ∀ p ∈ S, p.1 ≠ p.2 ∧ p.1 ∈ teams ∧ p.2 ∈ teams)
    (hdisj : ∀ p ∈ S, ∀ q ∈ S, p ≠ q →
      p.1 ≠ q.1 ∧ p.1 ≠ q.2 ∧ p.2 ≠ q.1 ∧ p.2 ≠ q.2) :
    2 * S.card ≤ teams.length := by
  have h1 := endpoints_card S (fun p hp => (hS p hp).1) hdisj
  have h2 : (S.biUnion fun p => ({p.1, p.2} : Finset Team)) ⊆ teams.toFinset := by
    intro a ha
    simp only [Finset.mem_biUnion] at ha
    obtain ⟨p, hp, hap⟩ := ha
    simp at hap
    rcases hap with rfl | rfl
    · simp [(hS p hp).2.1]
    · simp [(hS p hp).2.2]
  calc 2 * S.card = (S.biUnion fun p => ({p.1, p.2} : Finset Team)).card := h1.symm
    _ ≤ teams.toFinset.card := Finset.card_le_card h2
    _ = teams.length := List.toFinset_card_of_nodup hnd

theorem df_step {v : ℕ} (h2 : 2 ≤ v) :
    (v - 1) * Nat.doubleFactorial (v - 3) = Nat.doubleFactorial (v - 1) := by
  by_cases h4 : 4 ≤ v
  · have h : v - 1 = (v - 3) + 2 := by omega
    rw [h, Nat.doubleFactorial_add_two]
  · interval_cases v <;> rfl

theorem getD_not_mem_eraseIdx {α : Type} [DecidableEq α] :
    ∀ (l : List α) (i : Nat), i < l.length → l.Nodup → ∀ d : α, l.getD i d ∉ l.eraseIdx i := by
  intro l
  induction l with
  | nil => intro i hi; simp at hi
  | cons a l ih =>
    intro i hi hnd d
    cases i with
    | zero =>
      rw [List.getD_cons_zero, List.eraseIdx_cons_zero]
      exact (List.nodup_cons.mp hnd).1
    | succ i =>
      rw [List.getD_cons_succ, List.eraseIdx_cons_succ]
      simp only [List.length_cons, Nat.add_lt_add_iff_right] at hi
      intro hmem
      rcases List.mem_cons.mp hmem with h | h
      · have hmeml : l.getD i d ∈ l := by
          rw [List.getD_eq_getElem l d hi]
          exact List.getElem_mem hi
        exact (List.nodup_cons.mp hnd).1 (h ▸ hmeml)
      · exact ih i hi (List.nodup_cons.mp hnd).2 d h

theorem mem_eraseIdx_of_ne {α : Type} [DecidableEq α] :
    ∀ (l : List α) (i : Nat) (d : α) {x : α}, x ∈ l → x ≠ l.getD i d → x ∈ l.eraseIdx i := by
  intro l
  induction l with
  | nil => intro i d x hx; simp at hx
  | cons a l ih =>
    intro i d x hx hne
    cases i with
    | zero =>
      rw [List.getD_cons_zero] at hne
      rw [List.eraseIdx_cons_zero]
      rcases List.mem_cons.mp hx with h | h
      · exact absurd h hne
      · exact h
    | succ i =>
      rw [List.getD_cons_succ] at hne
      rw [List.eraseIdx_cons_succ]
      rcases List.mem_cons.mp hx with h | h
      · simp [h]
      · exact List.mem_cons.mpr (Or.inr (ih i d h hne))

/-- Events are unordered: swapping the event pair does not change whether a
bracket has it. -/
theorem bracket_has_event_swap (b : Bracket) (a c : Team) :
    bracket_has_event b (a, c) = bracket_has_event b (c, a) :=
  Bool.or_comm _ _

/-- Core counting lemma: over a duplicate-free even pool (without the
sentinel), the number of unconstrained brackets containing every pair of a
pairwise-disjoint set `S` of in-pool pairs is the double factorial
`(n - 2|S| - 1)‼`. -/
theorem gb_countP_forced (teams : List Team) (S : Finset (Team × Team))
    (hnd : teams.Nodup) (hbye : byeTeam ∉ teams) (hne : teams ≠ [])
    (heven : teams.length % 2 = 0)
    (hS : ∀ p ∈ S, p.1 ≠ p.2 ∧ p.1 ∈ teams ∧ p.2 ∈ teams)
    (hdisj : ∀ p ∈ S, ∀ q ∈ S, p ≠ q →
      p.1 ≠ q.1 ∧ p.1 ≠ q.2 ∧ p.2 ≠ q.1 ∧ p.2 ≠ q.2) :
    ((generate_brackets teams []).countP fun b =>
        decide (∀ p ∈ S, bracket_has_event b p = true)) =
      Nat.doubleFactorial (teams.length - 2 * S.card - 1) := by
  generalize hn : teams.length = n
  induction n using Nat.strong_induction_on generalizing teams S with
  | _ n ih =>
    rcases teams with - | ⟨t1, - | ⟨t2, - | ⟨t3, rest⟩⟩⟩
    · exact absurd rfl hne
    · simp at heven
    · -- two-team pool: the single bracket contains every admissible pair
      subst hn
      rw [generate_brackets_two, if_pos (by simp)]
      have ht12 : t1 ≠ t2 := by
        have := List.nodup_cons.mp hnd
        simp at this
        exact this
      have hP : ∀ p ∈ S, bracket_has_event [(t1, t2)] p = true := by
        intro p hp
        obtain ⟨hpne, hp1, hp2⟩ := hS p hp
        rw [bracket_has_event_singleton]
        simp at hp1 hp2
        rcases hp1 with h1 | h1
        · rcases hp2 with h2 | h2
          · exact absurd (h1.trans h2.symm) hpne
          · exact Or.inl ⟨h1, h2⟩
        · rcases hp2 with h2 | h2
          · exact Or.inr ⟨h2, h1⟩
          · exact absurd (h1.trans h2.symm) hpne
      have hone : (List.countP (fun b => decide (∀ p ∈ S, bracket_has_event b p = true))
          [[(t1, t2)]]) = 1 := by
        have hd : (decide (∀ p ∈ S, bracket_has_event [(t1, t2)] p = true)) = true :=
          decide_eq_true hP
        rw [List.countP_cons, List.countP_nil, hd]
        rfl
      rw [hone]
      rcases Nat.eq_zero_or_pos S.card with hc | hc
      · rw [hc]
        rfl
      · have hz : ([t1, t2] : List Team).length - 2 * S.card - 1 = 0 := by
          simp
          omega
        rw [hz]
        rfl
    · -- pool of n ≥ 4 teams (even)
      subst hn
      rw [generate_brackets_cons3]
      simp only [choose_matchup]
      rw [pick_pairs_no_rules, List.countP_flatMap, List.map_map]
      have hlen4 : 4 ≤ (t1 :: t2 :: t3 :: rest).length := by
        simp at heven ⊢
        omega
      have ht1other : t1 ∉ (t2 :: t3 :: rest) := (List.nodup_cons.mp hnd).1
      have hndother : (t2 :: t3 :: rest).Nodup := (List.nodup_cons.mp hnd).2
      have ht1bye : t1 ≠ byeTeam := by
        intro h
        exact hbye (h ▸ List.mem_cons_self t1 (t2 :: t3 :: rest))
      have hbyeother : byeTeam ∉ (t2 :: t3 :: rest) := fun h => hbye (List.mem_cons_of_mem t1 h)
      by_cases hA : ∃ p ∈ S, p.1 = t1 ∨ p.2 = t1
      · -- the pivot is an endpoint of exactly one forced pair
        obtain ⟨pstar, hpstar, hend⟩ := hA
        have hps1 : (pstar.1 = t1 ∧ pstar.2 ≠ t1) ∨ (pstar.2 = t1 ∧ pstar.1 ≠ t1) := by
          have hpne := (hS pstar hpstar).1
          rcases hend with h | h
          · exact Or.inl ⟨h, fun hc => hpne (h.trans hc.symm)⟩
          · exact Or.inr ⟨h, fun hc => hpne (hc.trans h.symm)⟩
        -- the partner of the pivot inside pstar
        obtain ⟨u, huor⟩ : ∃ u : Team, pstar = (t1, u) ∨ pstar = (u, t1) := by
          rcases hps1 with ⟨h, -⟩ | ⟨h, -⟩
          · exact ⟨pstar.2, Or.inl (Prod.ext_iff.mpr ⟨h, rfl⟩)⟩
          · exact ⟨pstar.1, Or.inr (Prod.ext_iff.mpr ⟨rfl, h⟩)⟩
        have hut1 : u ≠ t1 := by
          have hpne := (hS pstar hpstar).1
          rcases huor with h | h <;> rw [h] at hpne <;> simp at hpne <;>
            first
              | exact fun hc => hpne hc.symm
              | exact hpne
        have humem : u ∈ t2 :: t3 :: rest := by
          have h2 := hS pstar hpstar
          rcases huor with h | h <;> rw [h] at h2 <;> simp at h2 ⊢ <;> tauto
        have hstar_eq : ∀ b : Bracket, bracket_has_event b pstar = bracket_has_event b (t1, u) := by
          intro b
          rcases huor with h | h
          · rw [h]
          · rw [h, bracket_has_event_swap]
        have hasmx : ∀ x : Team, bracket_has_event [(t1, x)] (t1, u) = true ↔ x = u := by
          intro x
          rw [bracket_has_event_singleton]
          constructor
          · rintro (⟨-, h⟩ | ⟨h, -⟩)
            · exact h.symm
            · exact absurd h hut1
          · intro h
            exact Or.inl ⟨rfl, h.symm⟩
        have hasother : ∀ q ∈ S, q ≠ pstar → bracket_has_event [(t1, u)] q = false := by
          intro q hq hqne
          have hd := hdisj q hq pstar hpstar hqne
          rw [← Bool.not_eq_true, bracket_has_event_singleton]
          rintro (⟨h1, h2⟩ | ⟨h1, h2⟩) <;>
            rcases huor with h | h <;> rw [h] at hd <;> simp at hd <;> tauto
        have hcardpos : 1 ≤ S.card := Finset.card_pos.mpr ⟨pstar, hpstar⟩
        have hfun : ∀ i ∈ List.range (t2 :: t3 :: rest).length,
            ((List.countP (fun b => decide (∀ p ∈ S, bracket_has_event b p = true)) ∘
                fun mo => List.map (fun other_matchup => mo.1 ++ other_matchup)
                  (generate_brackets mo.2 [])) ∘ fun i =>
              (([(t1, (t2 :: t3 :: rest).getD i byeTeam)] : Bracket),
                [] ++ (t2 :: t3 :: rest).eraseIdx i)) i =
            if ((t2 :: t3 :: rest).getD i byeTeam == u) = true then
              Nat.doubleFactorial ((t1 :: t2 :: t3 :: rest).length - 2 * S.card - 1) else 0 := by
          intro i hi
          rw [List.mem_range] at hi
          simp only [Function.comp_apply, List.nil_append]
          rw [List.countP_map]
          set v := (t2 :: t3 :: rest).getD i byeTeam with hv
          have hvmem : v ∈ t2 :: t3 :: rest := by
            rw [hv, List.getD_eq_getElem _ _ hi]
            exact List.getElem_mem hi
          have hrlen : ((t2 :: t3 :: rest).eraseIdx i).length =
              (t2 :: t3 :: rest).length - 1 := by
            rw [List.length_eraseIdx, if_pos hi]
          by_cases hvu : v = u
          · -- the unique index pairing the pivot with its forced partner
            rw [if_pos (by simp [hvu])]
            have hpred : ((fun b => decide (∀ p ∈ S, bracket_has_event b p = true)) ∘
                fun ob => [(t1, v)] ++ ob) =
                fun ob => decide (∀ p ∈ S.erase pstar, bracket_has_event ob p = true) := by
              funext ob
              simp only [Function.comp_apply]
              rw [decide_eq_decide]
              constructor
              · intro h q hq
                rw [Finset.mem_erase] at hq
                have hres := h q hq.2
                rw [bracket_has_event_append, Bool.or_eq_true_iff] at hres
                rcases hres with hm | hob
                · rw [hvu, hasother q hq.2 hq.1] at hm
                  exact absurd hm (by simp)
                · exact hob
              · intro h p hp
                rw [bracket_has_event_append, Bool.or_eq_true_iff]
                by_cases hps : p = pstar
                · subst hps
                  rw [hstar_eq]
                  exact Or.inl ((hasmx v).mpr hvu)
                · exact Or.inr (h p (Finset.mem_erase.mpr ⟨hps, hp⟩))
            rw [hpred]
            have herase : ∀ q ∈ S.erase pstar, q.1 ≠ q.2 ∧
                q.1 ∈ (t2 :: t3 :: rest).eraseIdx i ∧ q.2 ∈ (t2 :: t3 :: rest).eraseIdx i := by
              intro q hq
              rw [Finset.mem_erase] at hq
              obtain ⟨hqne, hqS⟩ := hq
              obtain ⟨h1, h2, h3⟩ := hS q hqS
              have hd := hdisj q hqS pstar hpstar hqne
              have hq1 : q.1 ≠ t1 ∧ q.1 ≠ u := by
                rcases huor with h | h <;> rw [h] at hd <;> simp at hd <;> tauto
              have hq2 : q.2 ≠ t1 ∧ q.2 ≠ u := by
                rcases huor with h | h <;> rw [h] at hd <;> simp at hd <;> tauto
              refine ⟨h1, ?_, ?_⟩
              · apply mem_eraseIdx_of_ne
                · rcases List.mem_cons.mp h2 with h | h
                  · exact absurd h hq1.1
                  · exact h
                · rw [← hv, hvu]
                  exact hq1.2
              · apply mem_eraseIdx_of_ne
                · rcases List.mem_cons.mp h3 with h | h
                  · exact absurd h hq2.1
                  · exact h
                · rw [← hv, hvu]
                  exact hq2.2
            rw [ih ((t2 :: t3 :: rest).eraseIdx i).length
              (by simp at hrlen ⊢; omega)
              ((t2 :: t3 :: rest).eraseIdx i) (S.erase pstar)
              ((List.eraseIdx_sublist _ i).nodup hndother)
              (fun h => hbyeother ((List.eraseIdx_sublist _ i).subset h))
              (by rw [← List.length_pos_iff_ne_nil]; simp at hrlen ⊢; omega)
              (by simp at hrlen heven ⊢; omega)
              herase
              (fun p hp q hq hpq => hdisj p (Finset.mem_of_mem_erase hp)
                q (Finset.mem_of_mem_erase hq) hpq)
              rfl]
            rw [hrlen, Finset.card_erase_of_mem hpstar]
            congr 1
            simp only [List.length_cons]
            omega
          · -- any other candidate kills the forced pair pstar
            rw [if_neg (by simp [hvu])]
            rw [List.countP_eq_zero]
            intro ob hob
            simp only [Bool.not_eq_true, Function.comp_apply]
            rw [← Bool.not_eq_true, decide_eq_true_eq]
            intro hall
            have hres := hall pstar hpstar
            rw [bracket_has_event_append, Bool.or_eq_true_iff, hstar_eq, hstar_eq] at hres
            rcases hres with hm | hob'
            · exact hvu ((hasmx v).mp hm)
            · have := @bracket_has_event_of_not_mem _ _ _ hob ((t1, u) : Team × Team)
                (Or.inl ⟨fun hmem => ht1other ((List.eraseIdx_sublist _ i).subset hmem), ht1bye⟩)
              rw [this] at hob'
              exact Bool.false_ne_true hob'
        rw [List.map_congr_left hfun,
          sum_range_getD (t2 :: t3 :: rest) byeTeam (fun x => x == u)]
        have hcount : List.countP (fun x => x == u) (t2 :: t3 :: rest) = 1 := by
          show List.count u (t2 :: t3 :: rest) = 1
          exact List.count_eq_one_of_mem hndother humem
        rw [hcount, one_mul]
      · -- the pivot is in no forced pair
        push_neg at hA
        set E : Finset Team := S.biUnion (fun p => ({p.1, p.2} : Finset Team)) with hE
        have hEmem : ∀ x, x ∈ E ↔ ∃ q ∈ S, x = q.1 ∨ x = q.2 := by
          intro x
          rw [hE]
          simp only [Finset.mem_biUnion, Finset.mem_insert, Finset.mem_singleton]
        have hEcard : E.card = 2 * S.card :=
          endpoints_card S (fun p hp => (hS p hp).1) hdisj
        have hEsub : ∀ x ∈ E, x ∈ t2 :: t3 :: rest := by
          intro x hx
          rw [hEmem] at hx
          obtain ⟨q, hq, hxq⟩ := hx
          obtain ⟨-, h2, h3⟩ := hS q hq
          have hxt1 : x ≠ t1 := by
            rcases hxq with rfl | rfl
            · exact (hA q hq).1
            · exact (hA q hq).2
          rcases hxq with rfl | rfl <;>
            [rcases List.mem_cons.mp h2 with h | h; rcases List.mem_cons.mp h3 with h | h] <;>
            first
              | exact absurd h hxt1
              | exact h
        have hfun : ∀ i ∈ List.range (t2 :: t3 :: rest).length,
            ((List.countP (fun b => decide (∀ p ∈ S, bracket_has_event b p = true)) ∘
                fun mo => List.map (fun other_matchup => mo.1 ++ other_matchup)
                  (generate_brackets mo.2 [])) ∘ fun i =>
              (([(t1, (t2 :: t3 :: rest).getD i byeTeam)] : Bracket),
                [] ++ (t2 :: t3 :: rest).eraseIdx i)) i =
            if (!decide ((t2 :: t3 :: rest).getD i byeTeam ∈ E)) = true then
              Nat.doubleFactorial ((t2 :: t3 :: rest).length - 1 - 2 * S.card - 1) else 0 := by
          intro i hi
          rw [List.mem_range] at hi
          simp only [Function.comp_apply, List.nil_append]
          rw [List.countP_map]
          set v := (t2 :: t3 :: rest).getD i byeTeam with hv
          have hrlen : ((t2 :: t3 :: rest).eraseIdx i).length =
              (t2 :: t3 :: rest).length - 1 := by
            rw [List.length_eraseIdx, if_pos hi]
          by_cases hvE : v ∈ E
          · -- candidate is an endpoint of some forced pair: that pair dies
            rw [if_neg (by simp [hvE])]
            rw [List.countP_eq_zero]
            intro ob hob
            rw [hEmem] at hvE
            obtain ⟨q, hq, hvq⟩ := hvE
            simp only [Bool.not_eq_true, Function.comp_apply]
            rw [← Bool.not_eq_true, decide_eq_true_eq]
            intro hall
            have hres := hall q hq
            rw [bracket_has_event_append, Bool.or_eq_true_iff] at hres
            have hvrem : v ∉ (t2 :: t3 :: rest).eraseIdx i := by
              rw [hv]
              exact getD_not_mem_eraseIdx _ i hi hndother byeTeam
            have hvbye : v ≠ byeTeam := by
              intro h
              have hvmem : v ∈ t2 :: t3 :: rest := by
                rw [hv, List.getD_eq_getElem _ _ hi]
                exact List.getElem_mem hi
              exact hbyeother (h ▸ hvmem)
            rcases hres with hm | hob'
            · rw [bracket_has_event_singleton] at hm
              rcases hm with ⟨h1, -⟩ | ⟨h1, -⟩
              · rcases hvq with hvq | hvq
                · exact (hA q hq).1 h1
                · exact (hA q hq).1 h1
              · rcases hvq with hvq | hvq
                · exact (hA q hq).2 h1
                · exact (hA q hq).2 h1
            · have hfalse := @bracket_has_event_of_not_mem _ _ _ hob q (by
                rcases hvq with hvq | hvq
                · exact Or.inl ⟨fun hmem => hvrem (hvq ▸ hmem), hvq ▸ hvbye⟩
                · exact Or.inr ⟨fun hmem => hvrem (hvq ▸ hmem), hvq ▸ hvbye⟩)
              rw [hfalse] at hob'
              exact Bool.false_ne_true hob'
          · -- candidate untouched by the forced pairs: recurse with S intact
            rw [if_pos (by simp [hvE])]
            have hvmem : v ∈ t2 :: t3 :: rest := by
              rw [hv, List.getD_eq_getElem _ _ hi]
              exact List.getElem_mem hi
            have hpred : ((fun b => decide (∀ p ∈ S, bracket_has_event b p = true)) ∘
                fun ob => [(t1, v)] ++ ob) =
                fun ob => decide (∀ p ∈ S, bracket_has_event ob p = true) := by
              funext ob
              simp only [Function.comp_apply]
              rw [decide_eq_decide]
              have hm : ∀ p ∈ S, bracket_has_event [(t1, v)] p = false := by
                intro p hp
                rw [← Bool.not_eq_true, bracket_has_event_singleton]
                have hvp : v ≠ p.1 ∧ v ≠ p.2 := by
                  constructor <;> intro h <;> exact hvE ((hEmem v).mpr ⟨p, hp, by tauto⟩)
                rintro (⟨h1, h2⟩ | ⟨h1, h2⟩)
                · exact (hA p hp).1 h1
                · exact (hA p hp).2 h1
              constructor
              · intro h p hp
                have hres := h p hp
                rw [bracket_has_event_append, Bool.or_eq_true_iff] at hres
                rcases hres with hc | hc
                · rw [hm p hp] at hc
                  exact absurd hc (by simp)
                · exact hc
              · intro h p hp
                rw [bracket_has_event_append, Bool.or_eq_true_iff]
                exact Or.inr (h p hp)
            rw [hpred]
            have hSrem : ∀ p ∈ S, p.1 ≠ p.2 ∧
                p.1 ∈ (t2 :: t3 :: rest).eraseIdx i ∧ p.2 ∈ (t2 :: t3 :: rest).eraseIdx i := by
              intro p hp
              obtain ⟨h1, h2, h3⟩ := hS p hp
              have hvp : v ≠ p.1 ∧ v ≠ p.2 := by
                constructor <;> intro h <;> exact hvE ((hEmem v).mpr ⟨p, hp, by tauto⟩)
              refine ⟨h1, ?_, ?_⟩
              · apply mem_eraseIdx_of_ne
                · rcases List.mem_cons.mp h2 with h | h
                  · exact absurd h (hA p hp).1
                  · exact h
                · rw [← hv]
                  exact fun h => hvp.1 h.symm
              · apply mem_eraseIdx_of_ne
                · rcases List.mem_cons.mp h3 with h | h
                  · exact absurd h (hA p hp).2
                  · exact h
                · rw [← hv]
                  exact fun h => hvp.2 h.symm
            rw [ih ((t2 :: t3 :: rest).eraseIdx i).length
              (by simp at hrlen ⊢; omega)
              ((t2 :: t3 :: rest).eraseIdx i) S
              ((List.eraseIdx_sublist _ i).nodup hndother)
              (fun h => hbyeother ((List.eraseIdx_sublist _ i).subset h))
              (by rw [← List.length_pos_iff_ne_nil]; simp at hrlen ⊢; omega)
              (by simp at hrlen heven ⊢; omega)
              hSrem
              hdisj
              rfl]
            rw [hrlen]
        rw [List.map_congr_left hfun,
          sum_range_getD (t2 :: t3 :: rest) byeTeam (fun x => !decide (x ∈ E))]
        -- count the candidates that are not endpoints
        have hsplit := List.length_eq_countP_add_countP
          (fun x => decide (x ∈ E)) (t2 :: t3 :: rest)
        have hposE : List.countP (fun x => decide (x ∈ E)) (t2 :: t3 :: rest) = 2 * S.card := by
          rw [List.countP_eq_length_filter]
          have hndf : ((t2 :: t3 :: rest).filter fun x => decide (x ∈ E)).Nodup :=
            List.Nodup.filter _ hndother
          rw [← List.toFinset_card_of_nodup hndf, List.toFinset_filter]
          have hfeq : (t2 :: t3 :: rest).toFinset.filter
              (fun x => (decide (x ∈ E)) = true) = E := by
            apply Finset.ext
            intro a
            simp only [Finset.mem_filter, List.mem_toFinset, decide_eq_true_eq]
            constructor
            · exact fun h => h.2
            · intro h
              exact ⟨hEsub a h, h⟩
          rw [hfeq, hEcard]
        have hnegE : List.countP (fun x => !decide (x ∈ E)) (t2 :: t3 :: rest) =
            (t2 :: t3 :: rest).length - 2 * S.card := by
          have : List.countP (fun x => !decide (x ∈ E)) (t2 :: t3 :: rest) =
              List.countP (fun x => decide ¬(decide (x ∈ E)) = true) (t2 :: t3 :: rest) := by
            apply List.countP_congr
            intro x _
            simp
          rw [this]
          omega
        rw [hnegE]
        have h2cle : 2 * S.card ≤ (t2 :: t3 :: rest).length := by
          rw [← hEcard]
          have : E ⊆ (t2 :: t3 :: rest).toFinset := fun x hx => by
            rw [List.mem_toFinset]
            exact hEsub x hx
          calc E.card ≤ (t2 :: t3 :: rest).toFinset.card := Finset.card_le_card this
            _ = (t2 :: t3 :: rest).length := List.toFinset_card_of_nodup hndother
        -- arithmetic: (v - 1) * (v - 3)‼ = (v - 1)‼ for v = n - 2|S| ≥ 2
        have harith : ((t2 :: t3 :: rest).length - 2 * S.card) *
            Nat.doubleFactorial ((t2 :: t3 :: rest).length - 1 - 2 * S.card - 1) =
            Nat.doubleFactorial ((t1 :: t2 :: t3 :: rest).length - 2 * S.card - 1) := by
          have hveq : (t1 :: t2 :: t3 :: rest).length - 2 * S.card =
              ((t2 :: t3 :: rest).length - 2 * S.card) + 1 := by
            simp at h2cle ⊢
            omega
          have h2v : 2 ≤ (t1 :: t2 :: t3 :: rest).length - 2 * S.card := by
            have hEv : (t1 :: t2 :: t3 :: rest).length % 2 = 0 := heven
            simp at hEv h2cle ⊢
            omega
          have := df_step h2v
          rw [← this]
          congr 1
          · simp at h2cle ⊢
            omega
          · congr 1
            simp at h2cle ⊢
            omega
        rw [harith]

/-! ## Inclusion–exclusion over a list -/

/-- Counting the list elements avoiding every "bad" property of a finite set
`F` by alternating over the subsets of `F` forced to hold simultaneously. -/
theorem countP_incl_excl {α β : Type} [DecidableEq β] (l : List α) (F : Finset β)
    (has : α → β → Bool) :
    ((l.countP fun a => decide (∀ p ∈ F, ¬has a p = true)) : ℤ) =
      ∑ S ∈ F.powerset, (-1 : ℤ) ^ S.card *
        (l.countP fun a => decide (∀ p ∈ S, has a p = true)) := by
  induction l with
  | nil => simp
  | cons a l ih =>
    have key : ∑ S ∈ F.powerset, (-1 : ℤ) ^ S.card *
        (if (decide (∀ p ∈ S, has a p = true)) = true then (1 : ℤ) else 0) =
        (if (decide (∀ p ∈ F, ¬has a p = true)) = true then (1 : ℤ) else 0) := by
      set T := F.filter (fun p => has a p) with hT
      have hTsub : T ⊆ F := Finset.filter_subset _ _
      have step1 : ∑ S ∈ F.powerset, (-1 : ℤ) ^ S.card *
          (if (decide (∀ p ∈ S, has a p = true)) = true then (1 : ℤ) else 0) =
          ∑ S ∈ F.powerset, (if S ⊆ T then (-1 : ℤ) ^ S.card else 0) := by
        apply Finset.sum_congr rfl
        intro S hS
        rw [Finset.mem_powerset] at hS
        by_cases hc : S ⊆ T
        · rw [if_pos hc, if_pos, mul_one]
          rw [decide_eq_true_eq]
          intro p hp
          exact (Finset.mem_filter.mp (hc hp)).2
        · rw [if_neg hc, if_neg, mul_zero]
          rw [decide_eq_true_eq]
          intro hall
          apply hc
          intro p hp
          exact Finset.mem_filter.mpr ⟨hS hp, hall p hp⟩
      have step2 : ∑ S ∈ F.powerset, (if S ⊆ T then (-1 : ℤ) ^ S.card else 0) =
          ∑ S ∈ T.powerset, (-1 : ℤ) ^ S.card := by
        rw [← Finset.sum_filter]
        apply Finset.sum_congr
        · apply Finset.ext
          intro S
          simp only [Finset.mem_filter, Finset.mem_powerset]
          exact ⟨fun h => h.2, fun h => ⟨h.trans hTsub, h⟩⟩
        · intro S _
          rfl
      rw [step1, step2, Finset.sum_powerset_neg_one_pow_card]
      by_cases hempty : T = ∅
      · rw [if_pos hempty, if_pos]
        rw [decide_eq_true_eq]
        intro p hp hc
        have : p ∈ T := Finset.mem_filter.mpr ⟨hp, hc⟩
        rw [hempty] at this
        exact absurd this (Finset.not_mem_empty p)
      · rw [if_neg hempty, if_neg]
        rw [decide_eq_true_eq]
        intro hall
        apply hempty
        rw [Finset.eq_empty_iff_forall_not_mem]
        intro p hp
        rw [hT, Finset.mem_filter] at hp
        exact hall p hp.1 hp.2
    rw [List.countP_cons]
    push_cast
    rw [ih]
    have hterm : ∀ S ∈ F.powerset, (-1 : ℤ) ^ S.card *
        ((List.countP (fun x => decide (∀ p ∈ S, has x p = true)) (a :: l) : ℕ) : ℤ) =
        (-1 : ℤ) ^ S.card *
          ((List.countP (fun x => decide (∀ p ∈ S, has x p = true)) l : ℕ) : ℤ) +
        (-1 : ℤ) ^ S.card *
          (if (decide (∀ p ∈ S, has a p = true)) = true then (1 : ℤ) else 0) := by
      intro S hS
      rw [List.countP_cons]
      push_cast
      rw [mul_add]
    rw [Finset.sum_congr rfl hterm, Finset.sum_add_distrib, key]

theorem invalid_matchup_eq_true_iff (a c x y : Team) :
    invalid_matchup a c x y = true ↔ ¬((x = a ∧ y = c) ∨ (x = c ∧ y = a)) := by
  rw [invalid_matchup]
  simp
  tauto

/-- Under the rule set forbidding exactly the pairs of `F`, a bracket passes
the construction checks iff it avoids every event of `F`. -/
theorem bracket_passes_forbidden_iff (F : List (Team × Team)) (teams : List Team)
    (hbye : byeTeam ∉ teams) (hF : ∀ p ∈ F, p.1 ∈ teams ∧ p.2 ∈ teams) (b : Bracket) :
    bracket_passes (F.map fun p => invalid_matchup p.1 p.2) b = true ↔
      ∀ p ∈ F, ¬bracket_has_event b p = true := by
  rw [bracket_passes, List.all_eq_true]
  constructor
  · intro h p hp hhas
    rw [bracket_has_event_iff] at hhas
    obtain ⟨hp1, hp2⟩ := hF p hp
    rcases hhas with hmem | hmem
    · have hcheck := h _ hmem
      rw [Bool.or_eq_true_iff] at hcheck
      rcases hcheck with hb | hall
      · simp at hb
        exact hbye (hb ▸ hp2)
      · rw [List.all_eq_true] at hall
        have hrule := hall (invalid_matchup p.1 p.2) (List.mem_map.mpr ⟨p, hp, rfl⟩)
        rw [invalid_matchup_eq_true_iff] at hrule
        exact hrule (Or.inl ⟨rfl, rfl⟩)
    · have hcheck := h _ hmem
      rw [Bool.or_eq_true_iff] at hcheck
      rcases hcheck with hb | hall
      · simp at hb
        exact hbye (hb ▸ hp1)
      · rw [List.all_eq_true] at hall
        have hrule := hall (invalid_matchup p.1 p.2) (List.mem_map.mpr ⟨p, hp, rfl⟩)
        rw [invalid_matchup_eq_true_iff] at hrule
        exact hrule (Or.inr ⟨rfl, rfl⟩)
  · intro h pr hpr
    rw [Bool.or_eq_true_iff]
    by_cases hb : pr.2 = byeTeam
    · left
      simp [hb]
    · right
      rw [List.all_eq_true]
      intro rule hrule
      rw [List.mem_map] at hrule
      obtain ⟨p, hp, rfl⟩ := hrule
      rw [invalid_matchup_eq_true_iff]
      rintro (⟨h1, h2⟩ | ⟨h1, h2⟩)
      · apply h p hp
        rw [bracket_has_event_iff]
        exact Or.inl ((Prod.ext_iff.mpr ⟨h1, h2⟩ : pr = (p.1, p.2)) ▸ hpr)
      · apply h p hp
        rw [bracket_has_event_iff]
        exact Or.inr ((Prod.ext_iff.mpr ⟨h1, h2⟩ : pr = (p.2, p.1)) ▸ hpr)

/-- The inclusion–exclusion count of rule-valid brackets under a set of
pairwise-disjoint forbidden pairs over an even, duplicate-free pool. -/
theorem gb_forbidden_pairs_count (teams : List Team) (F : List (Team × Team))
    (hnd : teams.Nodup) (hbye : byeTeam ∉ teams) (hne : teams ≠ [])
    (heven : teams.length % 2 = 0)
    (hF : ∀ p ∈ F, p.1 ≠ p.2 ∧ p.1 ∈ teams ∧ p.2 ∈ teams)
    (hdisj : F.Pairwise fun p q => p.1 ≠ q.1 ∧ p.1 ≠ q.2 ∧ p.2 ≠ q.1 ∧ p.2 ≠ q.2) :
    ((generate_brackets teams (F.map fun p => invalid_matchup p.1 p.2)).length : ℤ) =
      ∑ i ∈ Finset.range (F.length + 1), (-1 : ℤ) ^ i *
        (binomial_coefficient F.length i : ℤ) *
        (Nat.doubleFactorial (teams.length - 2 * i - 1) : ℤ) := by
  have hFnd : F.Nodup :=
    hdisj.imp fun h heq => h.1 (congrArg Prod.fst heq)
  have hdisj' : ∀ p ∈ F, ∀ q ∈ F, p ≠ q →
      p.1 ≠ q.1 ∧ p.1 ≠ q.2 ∧ p.2 ≠ q.1 ∧ p.2 ≠ q.2 := by
    intro p hp q hq hpq
    exact List.Pairwise.forall
      (fun {a b} h => ⟨h.1.symm, h.2.2.1.symm, h.2.1.symm, h.2.2.2.symm⟩) hdisj hp hq hpq
  rw [gb_rules_filter teams _ hbye, ← List.countP_eq_length_filter]
  have hpred : (bracket_passes (F.map fun p => invalid_matchup p.1 p.2)) =
      fun b => decide (∀ p ∈ F.toFinset, ¬bracket_has_event b p = true) := by
    funext b
    rw [Bool.eq_iff_iff,
      bracket_passes_forbidden_iff F teams hbye (fun p hp => (hF p hp).2),
      decide_eq_true_eq]
    constructor
    · intro h p hp
      exact h p (List.mem_toFinset.mp hp)
    · intro h p hp
      exact h p (List.mem_toFinset.mpr hp)
  rw [hpred, countP_incl_excl]
  have hterm : ∀ S ∈ F.toFinset.powerset, (-1 : ℤ) ^ S.card *
      ((generate_brackets teams []).countP
        (fun b => decide (∀ p ∈ S, bracket_has_event b p = true)) : ℤ) =
      (-1 : ℤ) ^ S.card *
        (Nat.doubleFactorial (teams.length - 2 * S.card - 1) : ℤ) := by
    intro S hS
    rw [Finset.mem_powerset] at hS
    rw [gb_countP_forced teams S hnd hbye hne heven
      (fun p hp => hF p (List.mem_toFinset.mp (hS hp)))
      (fun p hp q hq hpq => hdisj' p (List.mem_toFinset.mp (hS hp))
        q (List.mem_toFinset.mp (hS hq)) hpq)]
  rw [Finset.sum_congr rfl hterm,
    Finset.sum_powerset_apply_card
      (fun m => (-1 : ℤ) ^ m * (Nat.doubleFactorial (teams.length - 2 * m - 1) : ℤ)),
    List.toFinset_card_of_nodup hFnd]
  apply Finset.sum_congr rfl
  intro i hi
  rw [Finset.mem_range] at hi
  rw [binomial_coefficient_eq_choose (by omega : i ≤ F.length), nsmul_eq_mul]
  ring

/-! ## Degenerate forced events never occur -/

/-- A bracket that has an event contains a pairing whose unordered content is
the event. -/
theorem has_event_mem_slots {b : Bracket} {e : Team × Team}
    (h : bracket_has_event b e = true) :
    ∃ P ∈ b, (P.1 = e.1 ∧ P.2 = e.2) ∨ (P.1 = e.2 ∧ P.2 = e.1) := by
  rw [bracket_has_event_iff] at h
  rcases h with h | h
  · exact ⟨(e.1, e.2), h, Or.inl ⟨rfl, rfl⟩⟩
  · exact ⟨(e.2, e.1), h, Or.inr ⟨rfl, rfl⟩⟩

/-- Over a duplicate-free pool without the sentinel, every team value fills at
most one slot of a yielded bracket. -/
theorem count_flatPairs_le_one {teams : List Team} {rules : List Rule} {b : Bracket}
    (hb : b ∈ generate_brackets teams rules) (hnd : teams.Nodup)
    (hbye : byeTeam ∉ teams) (x : Team) : (flatPairs b).count x ≤ 1 := by
  by_cases hx : x ∈ teams
  · rw [count_flatPairs_of_mem hb hnd hbye hx]
  · by_cases hxb : x = byeTeam
    · subst hxb
      rw [count_flatPairs_bye hb hbye]
      split <;> omega
    · rw [count_flatPairs_not_mem hb hx hxb]
      omega

/-- A self-pairing event never occurs in a yielded bracket over a
duplicate-free pool without the sentinel. -/
theorem has_event_self_false {teams : List Team} {rules : List Rule} {b : Bracket}
    (hb : b ∈ generate_brackets teams rules) (hnd : teams.Nodup)
    (hbye : byeTeam ∉ teams) {e : Team × Team} (heq : e.1 = e.2) :
    bracket_has_event b e = false := by
  rw [← Bool.not_eq_true]
  intro h
  rw [bracket_has_event_iff] at h
  have hmem : (e.1, e.1) ∈ b := by
    rcases h with h | h
    · exact (by rw [heq] : ((e.1, e.1) : Team × Team) = (e.1, e.2)) ▸ h
    · exact (by rw [heq] : ((e.1, e.1) : Team × Team) = (e.2, e.1)) ▸ h
  have h2 := count_flatPairs_self hmem
  have h1 := count_flatPairs_le_one hb hnd hbye e.1
  omega

/-- Two events sharing an entrant but differing as unordered pairs cannot
both occur in one yielded bracket. -/
theorem has_events_share_false {teams : List Team} {rules : List Rule} {b : Bracket}
    (hb : b ∈ generate_brackets teams rules) (hnd : teams.Nodup)
    (hbye : byeTeam ∉ teams) {e₁ e₂ : Team × Team}
    (hshare : e₁.1 = e₂.1 ∨ e₁.1 = e₂.2 ∨ e₁.2 = e₂.1 ∨ e₁.2 = e₂.2)
    (hnequ : ¬((e₁.1 = e₂.1 ∧ e₁.2 = e₂.2) ∨ (e₁.1 = e₂.2 ∧ e₁.2 = e₂.1)))
    (h1 : bracket_has_event b e₁ = true) (h2 : bracket_has_event b e₂ = true) :
    False := by
  obtain ⟨P₁, hP₁, hor₁⟩ := has_event_mem_slots h1
  obtain ⟨P₂, hP₂, hor₂⟩ := has_event_mem_slots h2
  have hPne : P₁ ≠ P₂ := by
    intro hPeq
    apply hnequ
    rcases hor₁ with ⟨ha, hc⟩ | ⟨ha, hc⟩ <;> rcases hor₂ with ⟨hd, hf⟩ | ⟨hd, hf⟩ <;>
      rw [hPeq] at ha hc <;>
      first
        | exact Or.inl ⟨ha.symm.trans hd, hc.symm.trans hf⟩
        | exact Or.inr ⟨ha.symm.trans hd, hc.symm.trans hf⟩
        | exact Or.inr ⟨hc.symm.trans hf, ha.symm.trans hd⟩
        | exact Or.inl ⟨hc.symm.trans hf, ha.symm.trans hd⟩
  obtain ⟨x, hx₁, hx₂⟩ : ∃ x, (x = e₁.1 ∨ x = e₁.2) ∧ (x = e₂.1 ∨ x = e₂.2) := by
    rcases hshare with h | h | h | h
    · exact ⟨e₁.1, Or.inl rfl, Or.inl h⟩
    · exact ⟨e₁.1, Or.inl rfl, Or.inr h⟩
    · exact ⟨e₁.2, Or.inr rfl, Or.inl h⟩
    · exact ⟨e₁.2, Or.inr rfl, Or.inr h⟩
  have hs₁ : x = P₁.1 ∨ x = P₁.2 := by
    rcases hor₁ with ⟨ha, hc⟩ | ⟨ha, hc⟩ <;> rcases hx₁ with h | h <;>
      first
        | exact Or.inl (h.trans ha.symm)
        | exact Or.inr (h.trans hc.symm)
  have hs₂ : x = P₂.1 ∨ x = P₂.2 := by
    rcases hor₂ with ⟨ha, hc⟩ | ⟨ha, hc⟩ <;> rcases hx₂ with h | h <;>
      first
        | exact Or.inl (h.trans ha.symm)
        | exact Or.inr (h.trans hc.symm)
  have hcount := count_flatPairs_two hP₁ hP₂ hPne hs₁ hs₂
  have hle := count_flatPairs_le_one hb hnd hbye x
  omega

/-! ## Monotonicity: adding a rule or an event -/

theorem pick_pairs_cons_sublist (team1 : Team) (r : Rule) (rules : List Rule) :
    ∀ (rest pre : List Team),
      (pick_pairs team1 (r :: rules) pre rest).Sublist (pick_pairs team1 rules pre rest) := by
  intro rest
  induction rest with
  | nil => intro pre; exact List.Sublist.refl _
  | cons t2 rest ih =>
    intro pre
    simp only [pick_pairs, List.all_cons]
    by_cases hall : (rules.all fun rule => rule team1 t2) = true
    · by_cases hr : r team1 t2 = true
      · rw [if_pos (by rw [hr, hall]; rfl), if_pos hall]
        exact (ih (pre ++ [t2])).cons₂ _
      · rw [if_neg (by simp [hr]), if_pos hall]
        exact (ih (pre ++ [t2])).cons _
    · rw [if_neg (by simp [hall]), if_neg hall]
      exact ih (pre ++ [t2])

theorem flatMap_sublist_of_forall {α β : Type} {l : List α} {f g : α → List β}
    (h : ∀ a ∈ l, (f a).Sublist (g a)) : (l.flatMap f).Sublist (l.flatMap g) := by
  induction l with
  | nil => exact List.Sublist.refl _
  | cons a l ih =>
    rw [List.flatMap_cons, List.flatMap_cons]
    exact (h a (by simp)).append (ih fun x hx => h x (by simp [hx]))

theorem flatMap_sublist_left {α β : Type} {l₁ l₂ : List α} (f : α → List β)
    (h : l₁.Sublist l₂) : (l₁.flatMap f).Sublist (l₂.flatMap f) := by
  induction h with
  | slnil => exact List.Sublist.refl _
  | cons a _ ih =>
    rw [List.flatMap_cons]
    exact ih.trans (List.sublist_append_right _ _)
  | cons₂ a _ ih =>
    rw [List.flatMap_cons, List.flatMap_cons]
    exact ih.append_left _

/-- Adding a rule only discards brackets: the constrained enumeration is a
sublist of the less constrained one. -/
theorem gb_cons_rule_sublist (teams : List Team) (r : Rule) (rules : List Rule) :
    (generate_brackets teams (r :: rules)).Sublist (generate_brackets teams rules) := by
  generalize hn : teams.length = n
  induction n using Nat.strong_induction_on generalizing teams with
  | _ n ih =>
    rcases teams with - | ⟨t1, - | ⟨t2, - | ⟨t3, rest⟩⟩⟩
    · exact List.Sublist.refl _
    · exact List.Sublist.refl _
    · rw [generate_brackets_two, generate_brackets_two]
      simp only [List.all_cons]
      by_cases hall : (rules.all fun rule => rule t1 t2) = true
      · by_cases hr : r t1 t2 = true
        · rw [if_pos (by rw [hr, hall]; rfl), if_pos hall]
        · rw [if_neg (by simp [hr]), if_pos hall]
          exact List.nil_sublist _
      · rw [if_neg (by simp [hall]), if_neg hall]
    · rw [generate_brackets_cons3, generate_brackets_cons3]
      simp only [choose_matchup]
      refine (flatMap_sublist_left _ (pick_pairs_cons_sublist t1 r rules _ [])).trans ?_
      apply flatMap_sublist_of_forall
      intro mo hmo
      apply List.Sublist.map
      have hlen : mo.2.length < n := by
        have := pick_pairs_length hmo
        simp at this hn
        omega
      exact ih mo.2.length hlen mo.2 rfl

theorem brute_force_fst_all (teams : List Team) (events : List (Team × Team))
    (rules : List Rule) :
    (brute_force teams events rules false).1 =
      (generate_brackets teams rules).countP
        (fun b => events.all fun event => bracket_has_event b event) := by
  rw [brute_force]
  simp

theorem brute_force_fst_any (teams : List Team) (events : List (Team × Team))
    (rules : List Rule) :
    (brute_force teams events rules true).1 =
      (generate_brackets teams rules).countP
        (fun b => events.any fun event => bracket_has_event b event) := by
  rw [brute_force]
  simp

theorem brute_force_snd (teams : List Team) (events : List (Team × Team))
    (rules : List Rule) (use_any : Bool) :
    (brute_force teams events rules use_any).2 = (generate_brackets teams rules).length := rfl

/-- Degenerate forced-event lists (a self-pairing, an entrant absent from the
pool and different from the sentinel, or two events that share an entrant yet
differ as unordered pairs) are never satisfied under all-co-occur semantics:
the query returns a zero satisfying count with the usual total. -/
theorem brute_force_degenerate_events (teams : List Team) (events : List (Team × Team))
    (rules : List Rule) (hnd : teams.Nodup) (hbye : byeTeam ∉ teams)
    (hdeg : (∃ e ∈ events, e.1 = e.2) ∨
      (∃ e ∈ events, (e.1 ∉ teams ∧ e.1 ≠ byeTeam) ∨ (e.2 ∉ teams ∧ e.2 ≠ byeTeam)) ∨
      (∃ e₁ ∈ events, ∃ e₂ ∈ events,
        (e₁.1 = e₂.1 ∨ e₁.1 = e₂.2 ∨ e₁.2 = e₂.1 ∨ e₁.2 = e₂.2) ∧
        ¬((e₁.1 = e₂.1 ∧ e₁.2 = e₂.2) ∨ (e₁.1 = e₂.2 ∧ e₁.2 = e₂.1)))) :
    brute_force teams events rules false = (0, (generate_brackets teams rules).length) := by
  have hfst := brute_force_fst_all teams events rules
  have hsnd := brute_force_snd teams events rules false
  rw [Prod.ext_iff, hfst, hsnd]
  refine ⟨?_, rfl⟩
  rw [List.countP_eq_zero]
  intro b hb hall
  rw [List.all_eq_true] at hall
  rcases hdeg with ⟨e, he, heq⟩ | ⟨e, he, hunk⟩ | ⟨e₁, he₁, e₂, he₂, hshare, hnequ⟩
  · have hc := hall e he
    rw [has_event_self_false hb hnd hbye heq] at hc
    exact Bool.false_ne_true hc
  · have hc := hall e he
    rw [bracket_has_event_of_not_mem hb hunk] at hc
    exact Bool.false_ne_true hc
  · exact has_events_share_false hb hnd hbye hshare hnequ (hall e₁ he₁) (hall e₂ he₂)

/-! ## Claims -/

/-- C1 (counterexample): the claim asserts that the empty pool yields one
bracket (the empty bracket); the enumerator of the source yields none, so the
count differs from the claimed double factorial `(n-1)!!` at `n = 0`. -/
theorem c1_empty_pool_counterexample :
    (generate_brackets ([] : List Team) []).length ≠
      Nat.doubleFactorial (([] : List Team).length - 1) := by
  decide

/-- C1 (amended): with no rules, the enumerator yields `(n-1)!!` brackets on
every pool of size `n ≥ 1` (in particular 105, 15, 3, 1 for n = 8, 6, 4, 2),
while the empty pool yields `0` brackets, not 1; the n = 8 instance is checked
explicitly against the fixture pool. -/
theorem c1_unconstrained_count :
    (∀ teams : List Team, (generate_brackets teams []).length =
      if teams.length = 0 then 0 else Nat.doubleFactorial (teams.length - 1)) ∧
    (generate_brackets [T1, GEN, HLE, DK, G2, FNC, BLG, FLY] []).length = 105 := by
  constructor
  · intro teams
    rcases teams with - | ⟨t, ts⟩
    · rfl
    · rw [if_neg (by simp)]
      exact gb_length_no_rules (t :: ts) (by simp)
  · decide

/-- C2 (counterexample): the inclusion–exclusion formula fails when the
forbidden pairs overlap: over the 4-team pool with the two overlapping
forbidden pairs (T1,GEN) and (T1,G2), the enumerator yields 1 bracket but the
formula evaluates to 2. -/
theorem c2_overlapping_pairs_counterexample :
    ¬(((generate_brackets [T1, GEN, G2, FNC]
        ([(T1, GEN), (T1, G2)].map fun p => invalid_matchup p.1 p.2)).length : ℤ) =
      ∑ i ∈ Finset.range (([(T1, GEN), (T1, G2)] : List (Team × Team)).length + 1),
        (-1 : ℤ) ^ i *
          (binomial_coefficient ([(T1, GEN), (T1, G2)] : List (Team × Team)).length i : ℤ) *
          (Nat.doubleFactorial (([T1, GEN, G2, FNC] : List Team).length - 2 * i - 1) : ℤ)) := by
  intro h
  simp only [List.length_cons, List.length_nil] at h
  rw [Finset.sum_range_succ, Finset.sum_range_succ, Finset.sum_range_succ,
    Finset.sum_range_zero,
    binomial_coefficient_eq_choose (by omega),
    binomial_coefficient_eq_choose (by omega),
    binomial_coefficient_eq_choose (by omega)] at h
  revert h
  decide

/-- C2 (amended): for every nonempty even-sized duplicate-free pool (without
the bye sentinel) and every list of pairwise-disjoint forbidden pairs of
distinct pool entrants, the number of brackets the enumerator yields under
the forbidding rules equals the inclusion–exclusion sum
`Σ_i (-1)^i C(r,i) (n-2i-1)!!`. -/
theorem c2_inclusion_exclusion (teams : List Team) (F : List (Team × Team))
    (hnd : teams.Nodup) (hbye : byeTeam ∉ teams) (hne : teams ≠ [])
    (heven : teams.length % 2 = 0)
    (hF : ∀ p ∈ F, p.1 ≠ p.2 ∧ p.1 ∈ teams ∧ p.2 ∈ teams)
    (hdisj : F.Pairwise fun p q => p.1 ≠ q.1 ∧ p.1 ≠ q.2 ∧ p.2 ≠ q.1 ∧ p.2 ≠ q.2) :
    ((generate_brackets teams (F.map fun p => invalid_matchup p.1 p.2)).length : ℤ) =
      ∑ i ∈ Finset.range (F.length + 1), (-1 : ℤ) ^ i *
        (binomial_coefficient F.length i : ℤ) *
        (Nat.doubleFactorial (teams.length - 2 * i - 1) : ℤ) :=
  gb_forbidden_pairs_count teams F hnd hbye hne heven hF hdisj

/-- C2 (witness): the amended inclusion–exclusion theorem applied to the
8-team fixture pool with the single forbidden pair (T1, GEN). -/
theorem c2_inclusion_exclusion_witness :
    ((generate_brackets [T1, GEN, HLE, DK, G2, FNC, BLG, FLY]
        ([(T1, GEN)].map fun p => invalid_matchup p.1 p.2)).length : ℤ) =
      ∑ i ∈ Finset.range (([(T1, GEN)] : List (Team × Team)).length + 1),
        (-1 : ℤ) ^ i *
          (binomial_coefficient ([(T1, GEN)] : List (Team × Team)).length i : ℤ) *
          (Nat.doubleFactorial
            (([T1, GEN, HLE, DK, G2, FNC, BLG, FLY] : List Team).length - 2 * i - 1) : ℤ) :=
  c2_inclusion_exclusion [T1, GEN, HLE, DK, G2, FNC, BLG, FLY] [(T1, GEN)]
    (by decide) (by decide) (by decide) (by decide) (by decide) (by simp)

/-- C3 (counterexample): the claim asserts a degenerate forced-event query
returns (0, 0); on a two-team pool with the self-pairing event (T1, T1) the
query returns (0, 1): the total count stays the number of rule-valid
brackets. -/
theorem c3_degenerate_counterexample :
    brute_force [T1, GEN] [(T1, T1)] [] false = (0, 1) ∧
      ((0, 1) : Nat × Nat) ≠ (0, 0) := by
  decide

/-- C3 (amended): for a duplicate-free pool without the bye sentinel, a
forced-event list containing a self-pairing, or an event naming an entrant
outside the pool (other than the sentinel), or two events that share an
entrant yet differ as unordered pairs, is satisfied by no bracket: under
all-co-occur semantics the query returns satisfying count 0 and the usual
total count — it does not raise and does not return (0, 0) unless no bracket
satisfies the rules. -/
theorem c3_degenerate_query (teams : List Team) (events : List (Team × Team))
    (rules : List Rule) (hnd : teams.Nodup) (hbye : byeTeam ∉ teams)
    (hdeg : (∃ e ∈ events, e.1 = e.2) ∨
      (∃ e ∈ events, (e.1 ∉ teams ∧ e.1 ≠ byeTeam) ∨ (e.2 ∉ teams ∧ e.2 ≠ byeTeam)) ∨
      (∃ e₁ ∈ events, ∃ e₂ ∈ events,
        (e₁.1 = e₂.1 ∨ e₁.1 = e₂.2 ∨ e₁.2 = e₂.1 ∨ e₁.2 = e₂.2) ∧
        ¬((e₁.1 = e₂.1 ∧ e₁.2 = e₂.2) ∨ (e₁.1 = e₂.2 ∧ e₁.2 = e₂.1)))) :
    brute_force teams events rules false = (0, (generate_brackets teams rules).length) :=
  brute_force_degenerate_events teams events rules hnd hbye hdeg

/-- C3 (witness): the amended degenerate-query theorem applied to the
self-pairing event (T1, T1) over the pool [T1, GEN]. -/
theorem c3_degenerate_query_witness :
    brute_force [T1, GEN] [(T1, T1)] [] false =
      (0, (generate_brackets [T1, GEN] []).length) :=
  c3_degenerate_query [T1, GEN] [(T1, T1)] [] (by decide) (by decide)
    (Or.inl ⟨(T1, T1), by decide, rfl⟩)

/-- C4: the four forced-event fixture cases of the source's own test: with no
rules the query returns (15, 105); with the region-disjoint rule (6, 24);
with a rule forbidding the target event itself (0, 90); and forcing the two
disjoint events (T1, GEN) and (HLE, G2) under that forbidding rule (3, 90). -/
theorem c4_forced_event_fixture :
    brute_force [T1, GEN, HLE, DK, G2, FNC, BLG, FLY] [(T1, G2)] [] false = (15, 105) ∧
    brute_force [T1, GEN, HLE, DK, G2, FNC, BLG, FLY] [(T1, G2)] [diff_region] false =
      (6, 24) ∧
    brute_force [T1, GEN, HLE, DK, G2, FNC, BLG, FLY] [(T1, G2)]
      [invalid_matchup T1 G2] false = (0, 90) ∧
    brute_force [T1, GEN, HLE, DK, G2, FNC, BLG, FLY] [(T1, GEN), (HLE, G2)]
      [invalid_matchup T1 G2] false = (3, 90) := by
  refine ⟨by decide, by decide, by decide, by decide⟩

/-- C5: the region-disjoint predicate rule and the seven explicit
forbidden-pair rules encode the same constraint on the fixture pool: the
query over the same pool and event returns the identical result (6, 24)
under either rule set. -/
theorem c5_rule_encoding_agreement :
    brute_force [T1, GEN, HLE, DK, G2, FNC, BLG, FLY] [(T1, G2)] [diff_region] false =
      (6, 24) ∧
    brute_force [T1, GEN, HLE, DK, G2, FNC, BLG, FLY] [(T1, G2)]
      [invalid_matchup T1 GEN, invalid_matchup T1 HLE, invalid_matchup T1 DK,
        invalid_matchup GEN HLE, invalid_matchup GEN DK, invalid_matchup HLE DK,
        invalid_matchup FNC G2] false = (6, 24) := by
  refine ⟨by decide, by decide⟩

/-- C6 (counterexample): the claim quantifies over every input sequence; with
the duplicate pool [T1, GEN, T1] the enumerator yields the bracket
[(T1, GEN), (T1, bye)] in which the entrant T1 appears in two pairings. -/
theorem c6_duplicate_pool_counterexample :
    ([(T1, GEN), (T1, byeTeam)] : Bracket) ∈ generate_brackets [T1, GEN, T1] [] ∧
    T1 ∈ ([T1, GEN, T1] : List Team) ∧
    ([(T1, GEN), (T1, byeTeam)] : Bracket).countP
      (fun pr => pr.1 == T1 || pr.2 == T1) ≠ 1 := by
  decide

/-- C6 (amended): for every duplicate-free input pool not containing the bye
sentinel, every yielded bracket partitions the input: each input entrant
belongs to exactly one pairing, and for an odd-sized pool exactly one pairing
carries the bye sentinel. -/
theorem c6_bracket_partition (teams : List Team) (rules : List Rule)
    (hnd : teams.Nodup) (hbye : byeTeam ∉ teams) {b : Bracket}
    (hb : b ∈ generate_brackets teams rules) :
    (∀ t ∈ teams, b.countP (fun pr => pr.1 == t || pr.2 == t) = 1) ∧
      (teams.length % 2 = 1 → b.countP (fun pr => pr.2 == byeTeam) = 1) := by
  constructor
  · intro t ht
    exact countP_pair_eq_one hb hnd hbye ht
  · intro hodd
    have hfst : ∀ pr ∈ b, pr.1 ≠ byeTeam := by
      intro pr hpr h
      exact hbye (h ▸ (gb_components teams rules hb pr hpr).1)
    rw [countP_snd_bye hfst, count_flatPairs_bye hb hbye, if_pos hodd]

/-- C6 (witness): the partition theorem applied to the singleton pool [T1]
and its sole bracket [(T1, bye)]. -/
theorem c6_bracket_partition_witness :
    (∀ t ∈ ([T1] : List Team),
      ([(T1, byeTeam)] : Bracket).countP (fun pr => pr.1 == t || pr.2 == t) = 1) ∧
    (([T1] : List Team).length % 2 = 1 →
      ([(T1, byeTeam)] : Bracket).countP (fun pr => pr.2 == byeTeam) = 1) :=
  c6_bracket_partition [T1] [] (by decide) (by decide) (by decide)

/-- C7 (counterexample): the claim quantifies over every pool; when the pool
contains the sentinel `Team()` itself, the enumerator emits the unchecked bye
pairing (bye, bye) of two input entrants even though the active rule rejects
it. -/
theorem c7_sentinel_pool_counterexample :
    ([(T1, GEN), (byeTeam, byeTeam)] : Bracket) ∈
      generate_brackets [T1, GEN, byeTeam] [fun _ y => !(y == byeTeam)] ∧
    byeTeam ∈ ([T1, GEN, byeTeam] : List Team) ∧
    (fun (_ y : Team) => !(y == byeTeam)) byeTeam byeTeam = false := by
  decide

/-- C7 (amended): for every pool not containing the bye sentinel and every
rule set, every pairing of a yielded bracket whose members are both input
entrants satisfies every active rule, in the stored argument order (the only
unchecked pairing is the bye pairing). -/
theorem c7_pairings_satisfy_rules (teams : List Team) (rules : List Rule)
    (hbye : byeTeam ∉ teams) {b : Bracket} (hb : b ∈ generate_brackets teams rules) :
    ∀ pr ∈ b, pr.2 ∈ teams → ∀ rule ∈ rules, rule pr.1 pr.2 = true :=
  gb_pairs_checked rules hbye hb

/-- C7 (witness): the rule-satisfaction theorem applied to the two-team pool
[T1, G2] under the region-disjoint rule. -/
theorem c7_pairings_satisfy_rules_witness : diff_region T1 G2 = true :=
  @c7_pairings_satisfy_rules [T1, G2] [diff_region] (by decide) [(T1, G2)] (by decide)
    (T1, G2) (by decide) (by decide) diff_region (List.mem_singleton.mpr rfl)

/-- C8: adding a rule never increases the total bracket count, and under
all-co-occur semantics adding a forced event never increases the satisfying
count. -/
theorem c8_monotonicity :
    (∀ (teams : List Team) (rules : List Rule) (r : Rule),
      (generate_brackets teams (r :: rules)).length ≤
        (generate_brackets teams rules).length) ∧
    (∀ (teams : List Team) (events : List (Team × Team)) (e : Team × Team)
        (rules : List Rule),
      (brute_force teams (e :: events) rules false).1 ≤
        (brute_force teams events rules false).1) := by
  constructor
  · intro teams rules r
    exact (gb_cons_rule_sublist teams r rules).length_le
  · intro teams events e rules
    rw [brute_force_fst_all, brute_force_fst_all]
    apply List.countP_mono_left
    intro b hb h
    rw [List.all_cons, Bool.and_eq_true] at h
    exact h.2

/-- C9: a singleton pool yields, for every rule set, exactly the one bracket
pairing the sole entrant with the bye sentinel (the default-constructed empty
team); no rule is consulted. -/
theorem c9_singleton_pool :
    ∀ (e : Team) (rules : List Rule), generate_brackets [e] rules = [[(e, byeTeam)]] :=
  fun _ _ => rfl

/-- C10: with an empty target-event list the query's satisfying count equals
its total count under all-co-occur semantics (the universal check over no
events holds vacuously), and is 0 under any-may-occur semantics (the
existential check over no events fails). -/
theorem c10_empty_event_list :
    ∀ (teams : List Team) (rules : List Rule),
      (brute_force teams [] rules false).1 = (brute_force teams [] rules false).2 ∧
      (brute_force teams [] rules true).1 = 0 := by
  intro teams rules
  refine ⟨?_, ?_⟩ <;> rw [brute_force] <;> simp

end Tournament
